import Mathlib

/-!
Verification of the osptBWT repository (online RLBWT construction with an
exact builder `extend` and a SAP-aware builder `sptExtend`).

The dynamic RLE string of `DynRleAssoc` (src/OnlineLz77ViaRlbwt.hpp) is
embedded at the level of its abstract state: the text-ordered list of runs
`(character, weight)`.  The B+tree machinery (`BTree.hpp`,
`TagRelabelAlgo.hpp`) is not part of src/; per the specification (sections 3
and 4) the mixed tree represents exactly this run sequence in text order with
partial sums, the separated tree of a character lists that character's runs in
text order, and the alphabet tree aggregates per-character totals, so tree
navigation is modelled as list navigation and the partial-sum ascents as
prefix sums over the run list.  The branching logic of every operation is
translated from the source.

Conventions:
* machine integers are `Nat`; the one place where uint64 wrap-around matters
  (`sap_s - 1` with `sap_s = 0` in `sptExtend`) is modelled explicitly;
* a fallible operation returns `Option`; for `insertRun` and `select`,
  `none` models the defined sentinel `NOTFOUND` returned by the source, while
  for `rank`/`searchPosM` it models a violated asserted precondition
  (`assert(pos < |T|)`), for which the source defines no result.
-/

namespace Ospt

/-- A run of the dynamic RLE string: (64bit-char, weight). -/
abbrev Run : Type := Nat × Nat

/-- Abstract state of `DynRleAssoc`: the runs in text order (sentinel
dummy runs of weight 0 are not represented). -/
abbrev Runs : Type := List Run

/-- The string `T` represented by the RLE (each run expanded). -/
def decode : Runs → List Nat
  | [] => []
  | (c, w) :: rest => List.replicate w c ++ decode rest

/-- `DynRleAssoc::getSumOfWeight`: |T|, the total weight of the mixed tree. -/
def getSumOfWeight : Runs → Nat
  | [] => 0
  | (_, w) :: rest => w + getSumOfWeight rest

/-- `DynRleAssoc::getSumOfWeight(ch)` restricted to one character: total
weight of the separated tree of `ch` (0 if the tree is absent). -/
def cntCh (ch : Nat) : Runs → Nat
  | [] => 0
  | (c, w) :: rest => (if c = ch then w else 0) + cntCh ch rest

/-- Total weight of all characters strictly smaller than `ch`: the partial
sum obtained by ascending the alphabet tree (the F-column position of `ch`). -/
def cntLt (ch : Nat) : Runs → Nat
  | [] => 0
  | (c, w) :: rest => (if c < ch then w else 0) + cntLt ch rest

/-- Whether the separated tree of `ch` exists with a root that is not the
dummy: `ch` occurs in the structure.  (`searchCharA(ch)` returns a root whose
character equals `ch` exactly in this case; characters are never removed and
every inserted run keeps weight at least 1.) -/
def present (ch : Nat) : Runs → Bool
  | [] => false
  | (c, _) :: rest => c == ch || present ch rest

/-- `DynRleAssoc::searchPosM`: run index and relative position of text
position `pos`, found by descending the mixed tree by partial sums.  The
source asserts `pos < |T|`; `none` models the violated precondition. -/
def searchPosM : Runs → Nat → Option (Nat × Nat)
  | [], _ => none
  | (_, w) :: rest, pos =>
    if pos < w then some (0, pos)
    else
      match searchPosM rest (pos - w) with
      | some (i, rel) => some (i + 1, rel)
      | none => none

/-- Weight of the `ch`-runs strictly before run `i` in text order: the prefix
sum over the separated tree of `ch` up to the predecessor entry found by
`getPredIdxSFromIdxM` (separated entries are sorted by TRA label, i.e. by
text order). -/
def cntBefore (ch : Nat) (runs : Runs) (i : Nat) : Nat :=
  cntCh ch (runs.take i)

/-- `DynRleAssoc::rank` (idxM variant, source lines 348-382): rank of `ch`
at the position given by run `i` and relative position `rel`.  If `ch` is the
character of run `i` the result counts `rel + 1` plus the weight of earlier
`ch`-runs; otherwise, if the separated tree of `ch` is absent or its root is
the dummy the source returns 0 immediately (also when `calcTotal` is true);
otherwise it sums up to the predecessor entry.  With `calcTotal` it adds the
alphabet-tree partial sum, i.e. the total weight of characters smaller than
`ch`. -/
def rankIdx (runs : Runs) (ch i rel : Nat) (calcTotal : Bool) : Nat :=
  match runs[i]? with
  | none => 0
  | some (chNow, _) =>
    if ch = chNow then
      (rel + 1) + cntBefore ch runs i + (if calcTotal then cntLt ch runs else 0)
    else if present ch runs then
      cntBefore ch runs i + (if calcTotal then cntLt ch runs else 0)
    else 0

/-- `DynRleAssoc::rank` (source lines 331-342): decompose `pos` with
`searchPosM`, then use the idxM variant.  The source asserts `pos < |T|` and
has no other out-of-range path; `none` models the violated precondition. -/
def rank (runs : Runs) (ch pos : Nat) (calcTotal : Bool) : Option Nat :=
  match searchPosM runs pos with
  | none => none
  | some (i, rel) => some (rankIdx runs ch i rel calcTotal)

/-- Descent of the separated tree of `ch` by partial sums (`searchPosS`)
followed by the translation back to a text position (prefix weight of all
runs before the found run plus the offset inside it): helper of `select`.
`p` is the 0-based residual rank, `s` the text position of the current run. -/
def selGo (ch : Nat) : Runs → Nat → Nat → Option Nat
  | [], _, _ => none
  | (c, w) :: rest, p, s =>
    if c = ch then
      if p < w then some (s + p) else selGo ch rest (p - w) (s + w)
    else selGo ch rest p (s + w)

/-- `DynRleAssoc::select(ch, rank)` (source lines 415-427 and 389-408): if
the separated tree of `ch` is absent or its root is the dummy, or `rank`
exceeds the number of occurrences of `ch`, return `NOTFOUND` (modelled as
`none`); otherwise the text position of the `rank`-th (1-based) occurrence. -/
def select (runs : Runs) (ch r : Nat) : Option Nat :=
  if present ch runs = false then none
  else if cntCh ch runs < r then none
  else selGo ch runs (r - 1) 0

/-- `DynRleAssoc::changeWeight(idxM, delta)` with a positive delta: add `w`
to the weight of run `i` (partial-sum updates are implicit in this model). -/
def changeWeight : Runs → Nat → Nat → Runs
  | [], _, _ => []
  | (c, wi) :: rest, 0, w => (c, wi + w) :: rest
  | r :: rest, i + 1, w => r :: changeWeight rest i w

/-- `DynRleAssoc::insertNewRunAfter(ch, w, idxM)`: allocate a fresh run of
`ch` with weight `w` immediately after run `i` in text order (cross-linked
into the separated tree of `ch` at the label predecessor). -/
def insertNewRunAfter (ch w : Nat) : Runs → Nat → Runs
  | [], _ => [(ch, w)]
  | r :: rest, 0 => r :: (ch, w) :: rest
  | r :: rest, i + 1 => r :: insertNewRunAfter ch w rest i

/-- The split branch of `DynRleAssoc::insertRun`: run `i` (char `c`, weight
`wi`) is reduced to `rel`, then a run of `ch` and the tail of `c` with weight
`wi - rel` are inserted after it (two `insertNewRunAfter` calls). -/
def splitRun (ch w : Nat) : Runs → Nat → Nat → Runs
  | [], _, _ => []
  | (c, wi) :: rest, 0, rel => (c, rel) :: (ch, w) :: (c, wi - rel) :: rest
  | r :: rest, i + 1, rel => r :: splitRun ch w rest i rel

/-- `DynRleAssoc::pushbackRun` (source lines 1078-1094): append at the end,
merging into the last run when its character matches.  Returns the new runs,
the run index of the inserted character and its relative position. -/
def pushbackRun (ch w : Nat) : Runs → Runs × Nat × Nat
  | [] => ([(ch, w)], 0, 0)
  | [(c, wl)] =>
    if c = ch then ([(c, wl + w)], 0, wl) else ([(c, wl), (ch, w)], 1, 0)
  | r :: s :: rest =>
    let (rs, i, p) := pushbackRun ch w (s :: rest)
    (r :: rs, i + 1, p)

/-- `DynRleAssoc::insertRun` (source lines 1113-1145): insert `ch^w` at text
position `pos`, merging into adjacent runs if possible.  For
`pos > |T|` the source returns the sentinel `NOTFOUND` without changing the
structure (modelled as `none`).  Otherwise the result is the new runs, the
run index `idxM` containing the inserted character and the relative position
inside it. -/
def insertRun (ch w pos : Nat) (runs : Runs) : Option (Runs × Nat × Nat) :=
  if getSumOfWeight runs < pos then none
  else if pos = getSumOfWeight runs then some (pushbackRun ch w runs)
  else
    match searchPosM runs pos with
    | none => none
    | some (i, rel) =>
      match runs[i]? with
      | none => none
      | some (ci, _) =>
        if ch = ci then some (changeWeight runs i w, i, rel)
        else if rel = 0 then
          match i with
          | 0 => some ((ch, w) :: runs, 0, 0)
          | j + 1 =>
            match runs[j]? with
            | none => none
            | some (cj, wj) =>
              if ch = cj then some (changeWeight runs j w, j, wj)
              else some (insertNewRunAfter ch w runs j, j + 1, 0)
        else some (splitRun ch w runs i rel, i + 1, 0)

/-- Modelled from the spec: `DynRleForRlbwt.hpp` (the DynRle instantiated by
the OsptBWT shell) is not under src/.  Its `insert_run_after(idxM, ch)`
"appends a character immediately after the run idxM" (spec section 4.6); as
in the in-src `insertNewRunAfter`, a fresh run of weight 1 is placed after
run `i` in text order. -/
def insertRunAfter (runs : Runs) (i ch : Nat) : Runs :=
  insertNewRunAfter ch 1 runs i

/-- State of the `OsptBWT` shell (src/OsptBWT.hpp): the DynRle core, the
position `emPos_` of the implicit end marker, the end marker `em_`, the
counter `num_em_` and the SAP interval `[sap_s, sap_e]`. -/
structure BwtState where
  runs : Runs
  emPos : Nat
  em : Nat
  numEm : Nat
  sapS : Nat
  sapE : Nat
deriving DecidableEq, Repr

/-- The constructor `OsptBWT(initNumBtms, em)`: empty RLE, `emPos_ = 0`,
`num_em_ = 1`, SAP interval `[0, 0]`. -/
def initState (em : Nat) : BwtState :=
  { runs := [], emPos := 0, em := em, numEm := 1, sapS := 0, sapE := 0 }

/-- `OsptBWT::getLenWithEndmarker`: |T| + 1 for the implicit end marker. -/
def getLenWithEndmarker (st : BwtState) : Nat :=
  getSumOfWeight st.runs + 1

/-- `OsptBWT::extend` (source lines 78-92): `idxM = insertRun(emPos_, ch)`
(which updates `emPos_` in place to the relative position in the run), then
`emPos_ = 0` if `ch` is the end marker, else
`emPos_ = rank(ch, idxM, emPos_, true)`.  If `insertRun` returned `NOTFOUND`
the subsequent rank call would use an invalid `idxM` (asserted), modelled as
`none`. -/
def extend (ch : Nat) (st : BwtState) : Option BwtState :=
  match insertRun ch 1 st.emPos st.runs with
  | none => none
  | some (runs2, i, rel) =>
    some { st with
           runs := runs2
           emPos := if ch = st.em then 0 else rankIdx runs2 ch i rel true }

/-- `OsptBWT::insertOptRun` (source lines 94-123): the optimal
within-interval insertion used when `[sap_s, sap_e]` contains no occurrence
of `ch`.  First, if `sap_s > 0` and the run containing position `sap_s - 1`
has character `ch`, merge there by incrementing its weight.  Otherwise locate
the run containing `sap_s`; if it ends strictly before `sap_e` (it covers
only a left tail of the interval), append a fresh run after it via
`insertRunAfter`; otherwise fall back to `insertRun(sap_s, ch)` (whose
`NOTFOUND` leaves the structure unchanged).  `none` models the asserted
precondition of `searchPosM` being violated. -/
def insertOptRunCore (sapS sapE ch : Nat) (runs : Runs) : Option Runs :=
  match searchPosM runs sapS with
  | none => none
  | some (i, rel) =>
    match runs[i]? with
    | none => none
    | some (_, weight) =>
      if sapS - rel + weight - 1 < sapE then
        some (insertRunAfter runs i ch)
      else
        some (match insertRun ch 1 sapS runs with
              | some (r, _, _) => r
              | none => runs)

/-- First branch of `OsptBWT::insertOptRun`; see `insertOptRunCore`. -/
def insertOptRun (sapS sapE ch : Nat) (runs : Runs) : Option Runs :=
  if sapS ≠ 0 then
    match searchPosM runs (sapS - 1) with
    | none => none
    | some (i, _) =>
      match runs[i]? with
      | none => none
      | some (cNow, _) =>
        if ch = cNow then some (changeWeight runs i 1)
        else insertOptRunCore sapS sapE ch runs
  else insertOptRunCore sapS sapE ch runs

/-- uint64 subtraction of 1 (wraps at 0 to 2^64 - 1), as computed by
`sap_s - 1` on `uint64_t` in `OsptBWT::sptExtend`. -/
def u64sub1 (x : Nat) : Nat :=
  (x + (2 ^ 64 - 1)) % 2 ^ 64

/-- Insertion phase of `OsptBWT::sptExtend` (source lines 132-152).  When
`sap_s = sap_e` there is a single legal position: `insertRun(sap_s, ch)`
(ignoring its return value, so `NOTFOUND` leaves the runs unchanged).
Otherwise `s_n`/`e_n` count `ch` in the interval via two rank calls; if some
occurrence exists, insert at the first one (`select(ch, s_n + 1)`; a
`NOTFOUND` position makes the subsequent `insertRun` out of range, again a
no-op), else call `insertOptRun`.  The uint64 test `e_n - s_n > 0` is
equivalent to `e_n ≠ s_n`. -/
def sptInsertPhase (ch : Nat) (st : BwtState) : Option Runs :=
  if st.sapS = st.sapE then
    some (match insertRun ch 1 st.sapS st.runs with
          | some (r, _, _) => r
          | none => st.runs)
  else
    match (if st.sapS = 0 then some 0 else rank st.runs ch (st.sapS - 1) false) with
    | none => none
    | some sn =>
      match rank st.runs ch st.sapE false with
      | none => none
      | some en =>
        if en ≠ sn then
          some (match select st.runs ch (sn + 1) with
                | none => st.runs
                | some pos =>
                  match insertRun ch 1 pos st.runs with
                  | some (r, _, _) => r
                  | none => st.runs)
        else insertOptRun st.sapS st.sapE ch st.runs

/-- `OsptBWT::sptExtend` (source lines 128-174): the insertion phase
followed by the SAP-interval update.  If `ch` is the end marker, `num_em_`
is incremented and the interval becomes `[0, num_em_ - 1]`; otherwise a
single-point interval is mapped to the point `rank(ch, sap_s, true)` and a
wider interval to `[rank(ch, sap_s - 1, true) + 1, rank(ch, sap_e, true)]`,
where `sap_s - 1` is uint64 subtraction (for `sap_s = 0` the rank position
wraps to 2^64 - 1, violating rank's asserted precondition: `none`). -/
def sptExtend (ch : Nat) (st : BwtState) : Option BwtState :=
  match sptInsertPhase ch st with
  | none => none
  | some runs1 =>
    if ch = st.em then
      some { st with
             runs := runs1
             numEm := st.numEm + 1
             sapS := 0
             sapE := st.numEm + 1 - 1 }
    else if st.sapS = st.sapE then
      match rank runs1 ch st.sapS true with
      | none => none
      | some t => some { st with runs := runs1, sapS := t, sapE := t }
    else
      match rank runs1 ch (u64sub1 st.sapS) true with
      | none => none
      | some a =>
        match rank runs1 ch st.sapE true with
        | none => none
        | some b => some { st with runs := runs1, sapS := a + 1, sapE := b }

/-- One step of `OsptBWT::invert` (source lines 251-263): adjust `pos` for
the implicit end marker, read the character of the run containing `pos`, and
move to `rank(ch, idxM, pos, true)`. -/
def invertStep (runs : Runs) (emPos pos : Nat) : Option (Nat × Nat) :=
  let p := if emPos < pos then pos - 1 else pos
  match searchPosM runs p with
  | none => none
  | some (i, rel) =>
    match runs[i]? with
    | none => none
    | some (ch, _) => some (ch, rankIdx runs ch i rel true)

/-- The loop of `OsptBWT::invert`, emitting one character per step. -/
def invertGo (runs : Runs) (emPos : Nat) : Nat → Nat → Option (List Nat)
  | 0, _ => some []
  | k + 1, pos =>
    match invertStep runs emPos pos with
    | none => none
    | some (ch, pos2) =>
      match invertGo runs emPos k pos2 with
      | none => none
      | some rest => some (ch :: rest)

/-- `OsptBWT::invert`: starting from `pos = 0`, emit
`getLenWithEndmarker() - 1` characters. -/
def invert (st : BwtState) : Option (List Nat) :=
  invertGo st.runs st.emPos (getLenWithEndmarker st - 1) 0

/-- Feeding a sequence through `OsptBWT::extend` from a fresh builder. -/
def buildExact (em : Nat) (S : List Nat) : Option BwtState :=
  S.foldl (fun ost ch => ost.bind (extend ch)) (some (initState em))

/-- Feeding a sequence through `OsptBWT::sptExtend` from a fresh builder. -/
def buildOpt (em : Nat) (S : List Nat) : Option BwtState :=
  S.foldl (fun ost ch => ost.bind (sptExtend ch)) (some (initState em))

/-! Specification-level view: the decoded string, brute-force counting, and
the inversion walk, used to state and prove the universal properties. -/

/-- Brute-force number of occurrences of `c` in `l`. -/
def cnt (c : Nat) (l : List Nat) : Nat :=
  l.count c

/-- Brute-force number of elements of `l` strictly smaller than `c`. -/
def cntL (c : Nat) (l : List Nat) : Nat :=
  l.countP (fun x => decide (x < c))

/-- Insert `c` at position `e` of `l`: the effect of `insertRun` with weight
1 on the decoded string. -/
def insAt (e c : Nat) (l : List Nat) : List Nat :=
  l.take e ++ c :: l.drop e

/-- Brute-force total rank (`rank` with `calcTotal = true`) of character `c`
at position `t` of the string `l`: occurrences of `c` in `l[0..t]` plus all
occurrences of smaller characters. -/
def rtot (c t : Nat) (l : List Nat) : Nat :=
  cnt c (l.take (t + 1)) + cntL c l

/-- The position adjustment `pos -= (pos > emPos_)` of the inversion loop. -/
def stepT (e q : Nat) : Nat :=
  if e < q then q - 1 else q

/-- Character emitted by one inversion step at BWT row `q`. -/
def stepChar (T : List Nat) (e q : Nat) : Nat :=
  T.getD (stepT e q) 0

/-- Next BWT row of the inversion walk (the LF step via total rank). -/
def stepNext (T : List Nat) (e q : Nat) : Nat :=
  rtot (stepChar T e q) (stepT e q) T

/-- `WalkTo T e q l`: starting at row `q`, the inversion walk on the string
`T` with end-marker row `e` emits exactly the characters of `l` (never
passing through row `e`, each row within bounds) and finishes at row `e`. -/
def WalkTo (T : List Nat) (e : Nat) : Nat → List Nat → Prop
  | q, [] => q = e
  | q, c :: l =>
    q ≠ e ∧ q ≤ T.length ∧ stepChar T e q = c ∧ WalkTo T e (stepNext T e q) l

/-- Row correspondence when the end-marker row moves to `e2`: rows at or
beyond `e2` shift up by one. -/
def shiftRow (e2 q : Nat) : Nat :=
  if e2 ≤ q then q + 1 else q

/-- Invariant of the exact builder: the decoded string has one character per
fed character, the end-marker position is in range, and the inversion walk
from row 0 emits exactly the fed sequence. -/
def Inv (S T : List Nat) (e : Nat) : Prop :=
  T.length = S.length ∧ e ≤ T.length ∧ WalkTo T e 0 S

/-- All runs have positive weight. -/
def allW (runs : Runs) : Prop :=
  ∀ r ∈ runs, 1 ≤ r.2

/-- The characters of the runs in text order. -/
def charsOf (runs : Runs) : List Nat :=
  runs.map Prod.fst

/-- No two consecutive elements are equal (the run-merge property, on the
character sequence of the runs). -/
def noAdj : List Nat → Prop
  | [] => True
  | [_] => True
  | a :: b :: l => a ≠ b ∧ noAdj (b :: l)

/-- Follows the spec's words for claim C9 only (to be compared with the
source's `rank`): the F-column position of the smallest present character
greater than or equal to `ch`, i.e. the total weight of characters smaller
than that character. -/
def specFPosGe (ch : Nat) (runs : Runs) : Option Nat :=
  match (charsOf runs).filter (fun c => decide (ch ≤ c)) with
  | [] => none
  | c :: cs => some (cntLt (cs.foldl min c) runs)

/-! ### Basic lemmas on counting and decoding -/

theorem cnt_cons (c x : Nat) (l : List Nat) :
    cnt c (x :: l) = (if x = c then 1 else 0) + cnt c l := by
  simp only [cnt, List.count_cons]
  by_cases h : x = c
  · simp [h, Nat.add_comm]
  · simp [h, Nat.add_comm]

theorem cntL_cons (c x : Nat) (l : List Nat) :
    cntL c (x :: l) = (if x < c then 1 else 0) + cntL c l := by
  simp only [cntL, List.countP_cons]
  by_cases h : x < c
  · simp [h, Nat.add_comm]
  · simp [h, Nat.add_comm]

theorem cnt_append (c : Nat) (a b : List Nat) :
    cnt c (a ++ b) = cnt c a + cnt c b := by
  simp [cnt, List.count_append]

theorem cntL_append (c : Nat) (a b : List Nat) :
    cntL c (a ++ b) = cntL c a + cntL c b := by
  simp [cntL, List.countP_append]

theorem cnt_replicate (c d w : Nat) :
    cnt d (List.replicate w c) = if c = d then w else 0 := by
  induction w with
  | zero => simp [cnt]
  | succ n ih =>
    rw [List.replicate_succ, cnt_cons, ih]
    by_cases h : c = d <;> simp [h] <;> omega

theorem cntL_replicate (c d w : Nat) :
    cntL d (List.replicate w c) = if c < d then w else 0 := by
  induction w with
  | zero => simp [cntL]
  | succ n ih =>
    rw [List.replicate_succ, cntL_cons, ih]
    by_cases h : c < d <;> simp [h] <;> omega

theorem cnt_add_cntL_le (c : Nat) (l : List Nat) :
    cnt c l + cntL c l ≤ l.length := by
  induction l with
  | nil => simp [cnt, cntL]
  | cons x l ih =>
    rw [cnt_cons, cntL_cons, List.length_cons]
    by_cases h : x = c <;> by_cases h2 : x < c <;> simp [h, h2] <;> omega

theorem cnt_cntL_mono (c d : Nat) (hcd : c < d) (l : List Nat) :
    cntL c l + cnt c l ≤ cntL d l := by
  induction l with
  | nil => simp [cnt, cntL]
  | cons x l ih =>
    rw [cnt_cons, cntL_cons, cntL_cons]
    have hd : (if x < c then 1 else 0) + (if x = c then 1 else 0)
        ≤ (if x < d then 1 else 0) := by
      rcases Nat.lt_trichotomy x c with h | h | h
      · rw [if_pos h, if_neg (by omega), if_pos (by omega)]
      · rw [if_neg (by omega), if_pos h, if_pos (by omega)]
      · rw [if_neg (by omega), if_neg (by omega)]
        omega
    omega

theorem decode_append (a b : Runs) : decode (a ++ b) = decode a ++ decode b := by
  induction a with
  | nil => rfl
  | cons r rest ih =>
    cases r with
    | mk c w => simp [decode, ih]

theorem decode_length (runs : Runs) :
    (decode runs).length = getSumOfWeight runs := by
  induction runs with
  | nil => rfl
  | cons r rest ih =>
    cases r with
    | mk c w => simp [decode, getSumOfWeight, ih]

theorem cnt_decode (ch : Nat) (runs : Runs) :
    cnt ch (decode runs) = cntCh ch runs := by
  induction runs with
  | nil => rfl
  | cons r rest ih =>
    cases r with
    | mk c w => rw [decode, cnt_append, cnt_replicate, ih, cntCh]

theorem cntL_decode (ch : Nat) (runs : Runs) :
    cntL ch (decode runs) = cntLt ch runs := by
  induction runs with
  | nil => rfl
  | cons r rest ih =>
    cases r with
    | mk c w => rw [decode, cntL_append, cntL_replicate, ih, cntLt]

theorem present_false_cntCh (ch : Nat) (runs : Runs)
    (h : present ch runs = false) : cntCh ch runs = 0 := by
  induction runs with
  | nil => rfl
  | cons r rest ih =>
    cases r with
    | mk c w =>
      rw [present, Bool.or_eq_false_iff] at h
      rw [cntCh, ih h.2, if_neg (by simpa using h.1)]

theorem cnt_take_le (c j : Nat) (l : List Nat) :
    cnt c (l.take j) ≤ cnt c l := by
  simpa [cnt] using (l.take_sublist j).count_le c

theorem cnt_take_mono (c j k : Nat) (hjk : j ≤ k) (l : List Nat) :
    cnt c (l.take j) ≤ cnt c (l.take k) := by
  have h : l.take j = (l.take k).take j := by
    rw [List.take_take, Nat.min_eq_left hjk]
  rw [h]
  exact cnt_take_le c j (l.take k)

theorem take_succ_getD (l : List Nat) (t : Nat) (h : t < l.length) :
    l.take (t + 1) = l.take t ++ [l.getD t 0] := by
  rw [List.take_succ, List.getD_eq_getElem?_getD, List.getElem?_eq_getElem h]
  rfl

theorem cnt_take_succ_self (l : List Nat) (t : Nat) (h : t < l.length) :
    cnt (l.getD t 0) (l.take (t + 1)) = cnt (l.getD t 0) (l.take t) + 1 := by
  rw [take_succ_getD l t h, cnt_append]
  simp [cnt]

theorem one_le_cnt_take_succ (l : List Nat) (t : Nat) (h : t < l.length) :
    1 ≤ cnt (l.getD t 0) (l.take (t + 1)) := by
  rw [cnt_take_succ_self l t h]
  omega

/-! ### Lemmas on insertion into the decoded string -/

theorem insAt_zero (c : Nat) (l : List Nat) : insAt 0 c l = c :: l := by
  simp [insAt]

theorem insAt_succ_cons (e c x : Nat) (l : List Nat) :
    insAt (e + 1) c (x :: l) = x :: insAt e c l := by
  simp [insAt]

theorem insAt_nil (e c : Nat) : insAt e c [] = [c] := by
  simp [insAt]

theorem insAt_length (e c : Nat) (l : List Nat) (he : e ≤ l.length) :
    (insAt e c l).length = l.length + 1 := by
  simp [insAt]
  omega

theorem insAt_at_length (c : Nat) (l : List Nat) :
    insAt l.length c l = l ++ [c] := by
  simp [insAt]

theorem insAt_getD_lt (c : Nat) :
    ∀ (e : Nat) (l : List Nat) (j : Nat), j < e → e ≤ l.length →
      (insAt e c l).getD j 0 = l.getD j 0
  | 0, _, j, hj, _ => absurd hj (Nat.not_lt_zero j)
  | e + 1, [], _, _, he => absurd he (by simp)
  | e + 1, x :: l, 0, _, _ => by
    rw [insAt_succ_cons, List.getD_cons_zero, List.getD_cons_zero]
  | e + 1, x :: l, j + 1, hj, he => by
    rw [insAt_succ_cons, List.getD_cons_succ, List.getD_cons_succ]
    exact insAt_getD_lt c e l j (by omega) (by simpa using he)

theorem insAt_getD_self (c : Nat) :
    ∀ (e : Nat) (l : List Nat), e ≤ l.length → (insAt e c l).getD e 0 = c
  | 0, l, _ => by rw [insAt_zero, List.getD_cons_zero]
  | e + 1, [], he => absurd he (by simp)
  | e + 1, x :: l, he => by
    rw [insAt_succ_cons, List.getD_cons_succ]
    exact insAt_getD_self c e l (by simpa using he)

theorem insAt_getD_gt (c : Nat) :
    ∀ (e : Nat) (l : List Nat) (j : Nat), e ≤ j → j ≤ l.length →
      (insAt e c l).getD (j + 1) 0 = l.getD j 0
  | 0, l, j, _, _ => by rw [insAt_zero, List.getD_cons_succ]
  | e + 1, [], j, he, hj => by
    simp at hj
    omega
  | e + 1, x :: l, j, he, hj => by
    obtain ⟨k, rfl⟩ : ∃ k, j = k + 1 := ⟨j - 1, by omega⟩
    rw [insAt_succ_cons, List.getD_cons_succ, List.getD_cons_succ]
    exact insAt_getD_gt c e l k (by omega) (by simpa using hj)

theorem insAt_take_le (c : Nat) :
    ∀ (e : Nat) (l : List Nat) (j : Nat), j ≤ e → e ≤ l.length →
      (insAt e c l).take j = l.take j
  | 0, l, j, hj, _ => by
    have : j = 0 := by omega
    simp [this]
  | e + 1, [], j, _, he => absurd he (by simp)
  | e + 1, x :: l, 0, _, _ => by simp
  | e + 1, x :: l, j + 1, hj, he => by
    rw [insAt_succ_cons, List.take_succ_cons, List.take_succ_cons]
    rw [insAt_take_le c e l j (by omega) (by simpa using he)]

theorem insAt_cnt_take_gt (c d : Nat) :
    ∀ (e : Nat) (l : List Nat) (j : Nat), e < j → e ≤ l.length →
      cnt d ((insAt e c l).take j)
        = cnt d (l.take (j - 1)) + (if c = d then 1 else 0)
  | 0, l, j, hej, _ => by
    obtain ⟨k, rfl⟩ : ∃ k, j = k + 1 := ⟨j - 1, by omega⟩
    rw [insAt_zero, List.take_succ_cons, cnt_cons]
    simp only [Nat.add_sub_cancel]
    omega
  | e + 1, [], j, _, he => absurd he (by simp)
  | e + 1, x :: l, j, hej, he => by
    obtain ⟨k, rfl⟩ : ∃ k, j = k + 1 := ⟨j - 1, by omega⟩
    rw [insAt_succ_cons, List.take_succ_cons, cnt_cons]
    rw [insAt_cnt_take_gt c d e l k (by omega) (by simpa using he)]
    obtain ⟨m, rfl⟩ : ∃ m, k = m + 1 := ⟨k - 1, by omega⟩
    simp only [Nat.add_sub_cancel, List.take_succ_cons, cnt_cons]
    omega

theorem insAt_cntL (e c d : Nat) (l : List Nat) :
    cntL d (insAt e c l) = cntL d l + (if c < d then 1 else 0) := by
  rw [insAt, cntL_append, cntL_cons]
  conv_rhs => rw [← List.take_append_drop e l, cntL_append]
  omega

theorem insAt_cnt (e c d : Nat) (l : List Nat) :
    cnt d (insAt e c l) = cnt d l + (if c = d then 1 else 0) := by
  rw [insAt, cnt_append, cnt_cons]
  conv_rhs => rw [← List.take_append_drop e l, cnt_append]
  omega

/-! ### Correctness of the position search -/

theorem getD_replicate_append_lt (w c pos : Nat) (B : List Nat) (h : pos < w) :
    (List.replicate w c ++ B).getD pos 0 = c := by
  rw [List.getD_append _ _ _ _ (by simpa using h)]
  rw [List.getD_eq_getElem?_getD, List.getElem?_eq_getElem (by simpa using h)]
  simp

theorem getD_replicate_append_ge (w c pos : Nat) (B : List Nat) (h : w ≤ pos) :
    (List.replicate w c ++ B).getD pos 0 = B.getD (pos - w) 0 := by
  rw [List.getD_append_right _ _ _ _ (by simpa using h)]
  simp

theorem searchPosM_spec :
    ∀ (runs : Runs) (pos : Nat), pos < getSumOfWeight runs →
      ∃ i rel c w, searchPosM runs pos = some (i, rel) ∧ runs[i]? = some (c, w) ∧
        rel < w ∧ (decode (runs.take i)).length + rel = pos ∧
        (decode runs).getD pos 0 = c
  | [], pos, h => absurd h (by simp [getSumOfWeight])
  | (c0, w0) :: rest, pos, h => by
    by_cases hp : pos < w0
    · refine ⟨0, pos, c0, w0, ?_, by simp, hp, by simp [decode], ?_⟩
      · simp [searchPosM, hp]
      · rw [decode]
        exact getD_replicate_append_lt w0 c0 pos (decode rest) hp
    · have h2 : pos - w0 < getSumOfWeight rest := by
        rw [getSumOfWeight] at h
        omega
      obtain ⟨i, rel, c, w, hs, hg, hrel, hlen, hgd⟩ := searchPosM_spec rest (pos - w0) h2
      refine ⟨i + 1, rel, c, w, ?_, by simpa using hg, hrel, ?_, ?_⟩
      · simp [searchPosM, hp, hs]
      · rw [List.take_succ_cons, decode]
        simp only [List.length_append, List.length_replicate]
        omega
      · rw [decode, getD_replicate_append_ge w0 c0 pos (decode rest) (by omega)]
        exact hgd

/-! ### Correctness of rank -/

theorem present_of_getElem? :
    ∀ (runs : Runs) (i : Nat) (c w : Nat), runs[i]? = some (c, w) →
      present c runs = true
  | [], i, _, _, hg => by simp at hg
  | (c0, w0) :: rest, 0, c, w, hg => by
    simp at hg
    simp [present, hg.1]
  | (c0, w0) :: rest, i + 1, c, w, hg => by
    simp only [List.getElem?_cons_succ] at hg
    simp [present, present_of_getElem? rest i c w hg]

theorem decode_take_decomp (runs : Runs) (i c w : Nat)
    (hg : runs[i]? = some (c, w)) :
    decode runs
      = decode (runs.take i) ++ (List.replicate w c ++ decode (runs.drop (i + 1))) := by
  have hi : i < runs.length := by
    by_contra hilen
    rw [List.getElem?_eq_none (by omega)] at hg
    exact Option.noConfusion hg
  conv_lhs => rw [← List.take_append_drop i runs, decode_append]
  congr 1
  rw [List.drop_eq_getElem_cons hi]
  have hget : runs[i] = (c, w) := by
    have h2 := List.getElem?_eq_getElem hi
    rw [hg] at h2
    exact Option.some.inj h2.symm
  rw [hget, decode]

theorem cnt_take_pos_succ (runs : Runs) (i rel pos c w d : Nat)
    (hg : runs[i]? = some (c, w)) (hrel : rel < w)
    (hpos : (decode (runs.take i)).length + rel = pos) :
    cnt d ((decode runs).take (pos + 1))
      = cnt d (decode (runs.take i)) + (if c = d then rel + 1 else 0) := by
  rw [decode_take_decomp runs i c w hg]
  have hsplit : pos + 1 = (decode (runs.take i)).length + (rel + 1) := by omega
  rw [hsplit, List.take_append, cnt_append]
  have htake : (List.replicate w c ++ decode (runs.drop (i + 1))).take (rel + 1)
      = List.replicate (rel + 1) c := by
    rw [List.take_append_of_le_length (by simpa using hrel), List.take_replicate]
    congr 1
    omega
  rw [htake, cnt_replicate]

theorem rankIdx_decomp (runs : Runs) (ch i rel pos w : Nat) (ct : Bool)
    (hg : runs[i]? = some (ch, w)) (hrel : rel < w)
    (hpos : (decode (runs.take i)).length + rel = pos) :
    rankIdx runs ch i rel ct
      = cnt ch ((decode runs).take (pos + 1))
        + (if ct then cntL ch (decode runs) else 0) := by
  have hcnt := cnt_take_pos_succ runs i rel pos ch w ch hg hrel hpos
  rw [if_pos rfl] at hcnt
  simp only [rankIdx, hg, eq_self_iff_true, ite_true, cntBefore]
  rw [hcnt, cntL_decode, ← cnt_decode]
  omega

theorem rankIdx_rtot (runs : Runs) (ch i rel pos w : Nat)
    (hg : runs[i]? = some (ch, w)) (hrel : rel < w)
    (hpos : (decode (runs.take i)).length + rel = pos) :
    rankIdx runs ch i rel true = rtot ch pos (decode runs) := by
  rw [rankIdx_decomp runs ch i rel pos w true hg hrel hpos, rtot, if_pos rfl]

theorem rank_spec (runs : Runs) (ch pos : Nat)
    (hpos : pos < getSumOfWeight runs) :
    rank runs ch pos false = some (cnt ch ((decode runs).take (pos + 1)))
    ∧ (present ch runs = true →
        rank runs ch pos true
          = some (cnt ch ((decode runs).take (pos + 1)) + cntL ch (decode runs)))
    ∧ (present ch runs = false → rank runs ch pos true = some 0) := by
  obtain ⟨i, rel, c, w, hs, hg, hrel, hlen, _⟩ := searchPosM_spec runs pos hpos
  have hcnt := cnt_take_pos_succ runs i rel pos c w ch hg hrel hlen
  by_cases hc : ch = c
  · subst hc
    have hpr := present_of_getElem? runs i ch w hg
    refine ⟨?_, fun _ => ?_, fun hab => ?_⟩
    · simp only [rank, hs]
      rw [rankIdx_decomp runs ch i rel pos w false hg hrel hlen]
      simp
    · simp only [rank, hs]
      rw [rankIdx_decomp runs ch i rel pos w true hg hrel hlen]
      simp
    · rw [hpr] at hab
      exact Bool.noConfusion hab
  · have hcnt2 : cnt ch ((decode runs).take (pos + 1))
        = cnt ch (decode (runs.take i)) := by
      rw [hcnt, if_neg (fun h => hc h.symm)]
      omega
    have hbefore : cntBefore ch runs i = cnt ch (decode (runs.take i)) := by
      rw [cntBefore, cnt_decode]
    by_cases hpr : present ch runs = true
    · refine ⟨?_, fun _ => ?_, fun hab => by rw [hpr] at hab; exact Bool.noConfusion hab⟩
      · simp only [rank, hs]
        simp only [rankIdx, hg, if_neg hc, if_pos hpr]
        rw [hbefore, hcnt2]
        simp
      · simp only [rank, hs]
        simp only [rankIdx, hg, if_neg hc, if_pos hpr]
        rw [hbefore, hcnt2, cntL_decode]
        simp
    · have hpr2 : present ch runs = false := by
        revert hpr
        cases present ch runs <;> simp
      have hzero : cnt ch ((decode runs).take (pos + 1)) = 0 := by
        have h1 : cnt ch (decode runs) = 0 := by
          rw [cnt_decode]
          exact present_false_cntCh ch runs hpr2
        have := cnt_take_le ch (pos + 1) (decode runs)
        omega
      refine ⟨?_, fun hab => by rw [hpr2] at hab; exact Bool.noConfusion hab, fun _ => ?_⟩
      · simp only [rank, hs]
        simp only [rankIdx, hg, if_neg hc, hpr2]
        rw [hzero]
        simp
      · simp only [rank, hs]
        simp only [rankIdx, hg, if_neg hc, hpr2]
        simp

/-! ### Shapes of the insertion operations -/

theorem changeWeight_eq :
    ∀ (runs : Runs) (i c wi w : Nat), runs[i]? = some (c, wi) →
      changeWeight runs i w = runs.take i ++ (c, wi + w) :: runs.drop (i + 1)
  | [], i, _, _, _, hg => by simp at hg
  | (c0, w0) :: rest, 0, c, wi, w, hg => by
    simp only [List.getElem?_cons_zero, Option.some.injEq, Prod.mk.injEq] at hg
    obtain ⟨rfl, rfl⟩ := hg
    rfl
  | r :: rest, i + 1, c, wi, w, hg => by
    simp only [List.getElem?_cons_succ] at hg
    simp [changeWeight, changeWeight_eq rest i c wi w hg]

theorem insertNewRunAfter_eq :
    ∀ (runs : Runs) (i ch w : Nat), i < runs.length →
      insertNewRunAfter ch w runs i
        = runs.take (i + 1) ++ (ch, w) :: runs.drop (i + 1)
  | [], i, _, _, hi => absurd hi (by simp)
  | r :: rest, 0, ch, w, _ => by simp [insertNewRunAfter]
  | r :: rest, i + 1, ch, w, hi => by
    simp only [List.length_cons, Nat.add_lt_add_iff_right] at hi
    simp [insertNewRunAfter, insertNewRunAfter_eq rest i ch w hi]

theorem splitRun_eq :
    ∀ (runs : Runs) (i rel ch w c wi : Nat), runs[i]? = some (c, wi) →
      splitRun ch w runs i rel
        = runs.take i ++ (c, rel) :: (ch, w) :: (c, wi - rel) :: runs.drop (i + 1)
  | [], i, _, _, _, _, _, hg => by simp at hg
  | (c0, w0) :: rest, 0, rel, ch, w, c, wi, hg => by
    simp only [List.getElem?_cons_zero, Option.some.injEq, Prod.mk.injEq] at hg
    obtain ⟨rfl, rfl⟩ := hg
    rfl
  | r :: rest, i + 1, rel, ch, w, c, wi, hg => by
    simp only [List.getElem?_cons_succ] at hg
    simp [splitRun, splitRun_eq rest i rel ch w c wi hg]

theorem pushbackRun_shape :
    ∀ (runs : Runs) (ch w : Nat),
      (runs = [] ∧ pushbackRun ch w runs = ([(ch, w)], 0, 0)) ∨
      (∃ A wl, runs = A ++ [(ch, wl)] ∧
        pushbackRun ch w runs = (A ++ [(ch, wl + w)], A.length, wl)) ∨
      (∃ A c wl, runs = A ++ [(c, wl)] ∧ c ≠ ch ∧
        pushbackRun ch w runs = (A ++ [(c, wl), (ch, w)], A.length + 1, 0))
  | [], ch, w => Or.inl ⟨rfl, rfl⟩
  | [(c, wl)], ch, w => by
    by_cases hc : c = ch
    · subst hc
      exact Or.inr (Or.inl ⟨[], wl, rfl, by simp [pushbackRun]⟩)
    · exact Or.inr (Or.inr ⟨[], c, wl, rfl, hc, by simp [pushbackRun, hc]⟩)
  | r :: s :: rest, ch, w => by
    rcases pushbackRun_shape (s :: rest) ch w with ⟨h, _⟩ | ⟨A, wl, hsh, heq⟩ |
      ⟨A, c, wl, hsh, hc, heq⟩
    · exact absurd h (by simp)
    · refine Or.inr (Or.inl ⟨r :: A, wl, by simp [hsh], ?_⟩)
      simp [pushbackRun, heq]
    · refine Or.inr (Or.inr ⟨r :: A, c, wl, by simp [hsh], hc, ?_⟩)
      simp [pushbackRun, heq]

/-! ### Well-formedness: positive weights and distinct adjacent characters -/

theorem allW_append (A B : Runs) : allW (A ++ B) ↔ allW A ∧ allW B := by
  constructor
  · intro h
    exact ⟨fun r hr => h r (List.mem_append_left _ hr),
           fun r hr => h r (List.mem_append_right _ hr)⟩
  · rintro ⟨h1, h2⟩ r hr
    rcases List.mem_append.mp hr with h | h
    · exact h1 r h
    · exact h2 r h

theorem allW_cons (c w : Nat) (rest : Runs) :
    allW ((c, w) :: rest) ↔ 1 ≤ w ∧ allW rest := by
  constructor
  · intro h
    exact ⟨h (c, w) (List.mem_cons_self _ _), fun r hr => h r (List.mem_cons_of_mem _ hr)⟩
  · rintro ⟨h1, h2⟩ r hr
    rcases List.mem_cons.mp hr with rfl | h
    · exact h1
    · exact h2 r h

theorem allW_take (runs : Runs) (i : Nat) (h : allW runs) : allW (runs.take i) :=
  fun r hr => h r (List.take_subset i runs hr)

theorem allW_drop (runs : Runs) (i : Nat) (h : allW runs) : allW (runs.drop i) :=
  fun r hr => h r (List.drop_subset i runs hr)

theorem allW_nil : allW [] := by
  intro r hr
  simp at hr

theorem noAdj_cons (y : Nat) (l : List Nat) :
    noAdj (y :: l) ↔ (∀ z ∈ l.head?, y ≠ z) ∧ noAdj l := by
  cases l with
  | nil => simp [noAdj]
  | cons z l => simp [noAdj]

theorem noAdj_snoc :
    ∀ (l : List Nat) (x : Nat), noAdj l → (∀ a ∈ l.getLast?, a ≠ x) →
      noAdj (l ++ [x])
  | [], x, _, _ => by simp [noAdj]
  | [a], x, _, hl => by
    simp only [List.getLast?_singleton, Option.mem_some_iff] at hl
    simp [noAdj]
    exact hl a rfl
  | a :: b :: l, x, hn, hl => by
    rw [noAdj_cons] at hn
    rw [List.cons_append, noAdj_cons]
    refine ⟨?_, noAdj_snoc (b :: l) x hn.2 (by simpa using hl)⟩
    intro z hz
    simp at hz
    subst hz
    exact hn.1 b (by simp)

theorem getElem?_lt {α : Type} (l : List α) (i : Nat) (x : α)
    (h : l[i]? = some x) : i < l.length := by
  rw [List.getElem?_eq_some] at h
  exact h.1

theorem head?_take_append (l : List Nat) (i c : Nat) (M : List Nat)
    (hg : l[i]? = some c) : (l.take i ++ c :: M).head? = l.head? := by
  cases l with
  | nil => simp at hg
  | cons z l =>
    cases i with
    | zero =>
      simp only [List.getElem?_cons_zero, Option.some.injEq] at hg
      simp [hg]
    | succ i => simp [List.take_succ_cons]

theorem noAdj_mid :
    ∀ (l : List Nat) (j a b x : Nat), l[j]? = some a → l[j + 1]? = some b →
      a ≠ x → b ≠ x → noAdj l → noAdj (l.take (j + 1) ++ x :: l.drop (j + 1))
  | [], j, a, b, x, hga, _, _, _, _ => by simp at hga
  | [y], 0, a, b, x, _, hgb, _, _, _ => by simp at hgb
  | [y], j + 1, a, b, x, hga, _, _, _, _ => by simp at hga
  | y :: z :: l, 0, a, b, x, hga, hgb, hax, hbx, hn => by
    simp only [List.getElem?_cons_zero, Option.some.injEq] at hga
    simp only [List.getElem?_cons_succ, List.getElem?_cons_zero,
      Option.some.injEq] at hgb
    subst hga
    subst hgb
    simp only [List.take_succ_cons, List.take_zero, List.drop_succ_cons,
      List.drop_zero, List.cons_append, List.nil_append]
    exact ⟨hax, fun h => hbx h.symm, hn.2⟩
  | y :: z :: l, j + 1, a, b, x, hga, hgb, hax, hbx, hn => by
    rw [List.getElem?_cons_succ] at hga hgb
    have ih := noAdj_mid (z :: l) j a b x hga hgb hax hbx hn.2
    rw [List.take_succ_cons, List.drop_succ_cons, List.cons_append, noAdj_cons]
    refine ⟨?_, ih⟩
    intro t ht
    rw [List.take_succ_cons, List.cons_append, List.head?_cons,
      Option.mem_some_iff] at ht
    subst ht
    exact hn.1

theorem noAdj_split :
    ∀ (l : List Nat) (i c x : Nat), l[i]? = some c → c ≠ x → noAdj l →
      noAdj (l.take i ++ c :: x :: c :: l.drop (i + 1))
  | [], i, _, _, hg, _, _ => by simp at hg
  | y :: l, 0, c, x, hg, hcx, hn => by
    simp only [List.getElem?_cons_zero, Option.some.injEq] at hg
    subst hg
    simp only [List.take_zero, List.drop_succ_cons, List.drop_zero,
      List.nil_append]
    exact ⟨hcx, fun h => hcx h.symm, hn⟩
  | y :: l, i + 1, c, x, hg, hcx, hn => by
    simp only [List.getElem?_cons_succ] at hg
    have ih := noAdj_split l i c x hg hcx ((noAdj_cons y l).mp hn).2
    rw [List.take_succ_cons, List.drop_succ_cons, List.cons_append, noAdj_cons]
    refine ⟨?_, ih⟩
    intro t ht
    rw [head?_take_append l i c _ hg] at ht
    exact ((noAdj_cons y l).mp hn).1 t ht

theorem charsOf_append (A B : Runs) :
    charsOf (A ++ B) = charsOf A ++ charsOf B := by
  simp [charsOf]

theorem charsOf_cons (c w : Nat) (rest : Runs) :
    charsOf ((c, w) :: rest) = c :: charsOf rest := rfl

theorem charsOf_take (runs : Runs) (i : Nat) :
    charsOf (runs.take i) = (charsOf runs).take i := by
  simp [charsOf, List.map_take]

theorem charsOf_drop (runs : Runs) (i : Nat) :
    charsOf (runs.drop i) = (charsOf runs).drop i := by
  simp [charsOf, List.map_drop]

theorem charsOf_getElem? (runs : Runs) (i c w : Nat)
    (hg : runs[i]? = some (c, w)) : (charsOf runs)[i]? = some c := by
  simp [charsOf, List.getElem?_map, hg]

theorem runs_decomp (runs : Runs) (i : Nat) (r : Run)
    (hg : runs[i]? = some r) :
    runs = runs.take i ++ r :: runs.drop (i + 1) := by
  have hi := getElem?_lt runs i r hg
  conv_lhs => rw [← List.take_append_drop i runs]
  rw [List.drop_eq_getElem_cons hi]
  congr 2
  have h2 := List.getElem?_eq_getElem hi
  rw [hg] at h2
  exact Option.some.inj h2.symm

theorem take_succ_of_getElem? (runs : Runs) (j : Nat) (r : Run)
    (hg : runs[j]? = some r) :
    runs.take (j + 1) = runs.take j ++ [r] := by
  rw [List.take_succ, hg]
  rfl

theorem getSumOfWeight_append (A B : Runs) :
    getSumOfWeight (A ++ B) = getSumOfWeight A + getSumOfWeight B := by
  induction A with
  | nil => simp [getSumOfWeight]
  | cons r rest ih =>
    cases r with
    | mk c w => simp [getSumOfWeight, ih]; omega

theorem insAt_at_append (A B : List Nat) (x : Nat) :
    insAt A.length x (A ++ B) = A ++ x :: B := by
  rw [insAt, List.take_left, List.drop_left]

theorem insAt_split_replicate (A B : List Nat) (c x w rel : Nat)
    (hrel : rel ≤ w) :
    insAt (A.length + rel) x (A ++ (List.replicate w c ++ B))
      = A ++ (List.replicate rel c ++ x :: (List.replicate (w - rel) c ++ B)) := by
  rw [insAt, List.take_append, List.drop_append]
  rw [List.take_append_of_le_length (by simpa using hrel),
    List.drop_append_of_le_length (by simpa using hrel)]
  rw [List.take_replicate, List.drop_replicate, Nat.min_eq_left hrel]
  simp

theorem insAt_into_replicate (A B : List Nat) (c w rel : Nat)
    (hrel : rel ≤ w) :
    insAt (A.length + rel) c (A ++ (List.replicate w c ++ B))
      = A ++ (List.replicate (w + 1) c ++ B) := by
  rw [insAt_split_replicate A B c c w rel hrel]
  congr 1
  rw [← List.cons_append, ← List.replicate_succ, ← List.append_assoc,
    ← List.replicate_add]
  congr 2
  omega

theorem length_take_of_le (runs : Runs) (i : Nat) (hi : i ≤ runs.length) :
    (runs.take i).length = i := by
  simp [List.length_take]
  omega

theorem getElem?_take_append_cons (runs : Runs) (i : Nat) (r : Run)
    (rest : Runs) (hi : i ≤ runs.length) :
    (runs.take i ++ r :: rest)[i]? = some r := by
  rw [List.getElem?_append_right (by rw [length_take_of_le runs i hi])]
  rw [length_take_of_le runs i hi]
  simp

theorem getElem?_take_append_cons1 (runs : Runs) (i : Nat) (r s : Run)
    (rest : Runs) (hi : i ≤ runs.length) :
    (runs.take i ++ r :: s :: rest)[i + 1]? = some s := by
  rw [List.getElem?_append_right (by rw [length_take_of_le runs i hi]; omega)]
  rw [length_take_of_le runs i hi]
  simp

theorem take_take_append (runs : Runs) (i : Nat) (M : Runs)
    (hi : i ≤ runs.length) :
    (runs.take i ++ M).take i = runs.take i := by
  rw [List.take_append_of_le_length (by rw [length_take_of_le runs i hi])]
  rw [List.take_take]
  simp

theorem take_succ_take_append (runs : Runs) (i : Nat) (r : Run) (M : Runs)
    (hi : i ≤ runs.length) :
    (runs.take i ++ r :: M).take (i + 1) = runs.take i ++ [r] := by
  conv_lhs => rw [show i + 1 = (runs.take i).length + 1 by
    rw [length_take_of_le runs i hi]]
  rw [List.take_append]
  rfl

theorem charsOf_changeWeight (runs : Runs) (i c wi w : Nat)
    (hg : runs[i]? = some (c, wi)) :
    charsOf (changeWeight runs i w) = charsOf runs := by
  rw [changeWeight_eq runs i c wi w hg]
  conv_rhs => rw [runs_decomp runs i (c, wi) hg]
  simp [charsOf]

theorem allW_changeWeight (runs : Runs) (i c wi w : Nat)
    (hg : runs[i]? = some (c, wi)) (h : allW runs) :
    allW (changeWeight runs i w) := by
  have hmem : (c, wi) ∈ runs := List.getElem?_mem hg
  have hwi : 1 ≤ wi := h (c, wi) hmem
  rw [changeWeight_eq runs i c wi w hg, allW_append, allW_cons]
  exact ⟨allW_take _ _ h, by omega, allW_drop _ _ h⟩

theorem decode_changeWeight (runs : Runs) (i c wi w : Nat)
    (hg : runs[i]? = some (c, wi)) :
    decode (changeWeight runs i w)
      = decode (runs.take i)
        ++ (List.replicate (wi + w) c ++ decode (runs.drop (i + 1))) := by
  rw [changeWeight_eq runs i c wi w hg, decode_append, decode]

/-! ### The main case analysis of insertRun (weight 1) -/

theorem insertRun_spec (runs : Runs) (ch pos : Nat)
    (hpos : pos ≤ getSumOfWeight runs) :
    ∃ runs2 i rel wi,
      insertRun ch 1 pos runs = some (runs2, i, rel) ∧
      runs2[i]? = some (ch, wi) ∧ rel < wi ∧
      (decode (runs2.take i)).length + rel = pos ∧
      decode runs2 = insAt pos ch (decode runs) ∧
      (allW runs → allW runs2) ∧
      (noAdj (charsOf runs) → noAdj (charsOf runs2)) := by
  have hne1 : ¬getSumOfWeight runs < pos := by omega
  by_cases hpe : pos = getSumOfWeight runs
  · have hunfold : insertRun ch 1 pos runs = some (pushbackRun ch 1 runs) := by
      simp only [insertRun, if_neg hne1, if_pos hpe]
    have hplen : pos = (decode runs).length := by rw [decode_length]; omega
    rcases pushbackRun_shape runs ch 1 with ⟨hnil, heq⟩ | ⟨A, wl, hsh, heq⟩ |
      ⟨A, c, wl, hsh, hc, heq⟩
    · subst hnil
      have hp0 : pos = 0 := by simpa [getSumOfWeight] using hpe
      subst hp0
      refine ⟨[(ch, 1)], 0, 0, 1, by rw [hunfold, heq], by simp, by omega,
        by rfl, by rfl, ?_, ?_⟩
      · intro _ r hr
        simp at hr
        simp [hr]
      · intro _
        simp [charsOf, noAdj]
    · subst hsh
      have hsw : getSumOfWeight (A ++ [(ch, wl)])
          = getSumOfWeight A + wl := by
        rw [getSumOfWeight_append]
        simp [getSumOfWeight]
      refine ⟨A ++ [(ch, wl + 1)], A.length, wl, wl + 1,
        by rw [hunfold, heq], ?_, by omega, ?_, ?_, ?_, ?_⟩
      · rw [List.getElem?_append_right (Nat.le_refl _)]
        simp
      · rw [List.take_left, decode_length]
        omega
      · rw [hplen]
        rw [insAt_at_length, decode_append, decode_append]
        simp only [decode, List.append_nil]
        rw [List.replicate_succ' (n := wl), List.append_assoc]
      · intro h
        rw [allW_append] at h
        rw [allW_append, allW_cons]
        exact ⟨h.1, by omega, allW_nil⟩
      · intro h
        have hch : charsOf (A ++ [(ch, wl + 1)]) = charsOf (A ++ [(ch, wl)]) := by
          simp [charsOf]
        rw [hch]
        exact h
    · subst hsh
      have hsw : getSumOfWeight (A ++ [(c, wl)]) = getSumOfWeight A + wl := by
        rw [getSumOfWeight_append]
        simp [getSumOfWeight]
      refine ⟨A ++ [(c, wl), (ch, 1)], A.length + 1, 0, 1,
        by rw [hunfold, heq], ?_, by omega, ?_, ?_, ?_, ?_⟩
      · rw [List.getElem?_append_right (by omega)]
        simp
      · have ht : (A ++ [(c, wl), (ch, 1)]).take (A.length + 1)
            = A ++ [(c, wl)] := by
          rw [List.take_append]
          rfl
        rw [ht, decode_length, getSumOfWeight_append]
        simp [getSumOfWeight]
        omega
      · rw [hplen, insAt_at_length, decode_append, decode_append]
        simp only [decode, List.append_nil, List.append_assoc]
        simp
      · intro h
        rw [allW_append] at h
        rw [allW_append, allW_cons, allW_cons]
        exact ⟨h.1, (allW_cons c wl [] ).mp h.2 |>.1, by omega, allW_nil⟩
      · intro h
        have hch : charsOf (A ++ [(c, wl), (ch, 1)])
            = (charsOf A ++ [c]) ++ [ch] := by
          simp [charsOf]
        have hch2 : charsOf (A ++ [(c, wl)]) = charsOf A ++ [c] := by
          simp [charsOf]
        rw [hch]
        rw [hch2] at h
        refine noAdj_snoc _ ch h ?_
        intro a ha
        rw [List.getLast?_concat, Option.mem_some_iff] at ha
        subst ha
        exact hc
  · have hlt : pos < getSumOfWeight runs := by omega
    obtain ⟨i, rel, c, w, hs, hg, hrel, hlen, hgd⟩ := searchPosM_spec runs pos hlt
    have hi : i < runs.length := getElem?_lt runs i _ hg
    have hdec := decode_take_decomp runs i c w hg
    by_cases hcc : ch = c
    · subst hcc
      refine ⟨changeWeight runs i 1, i, rel, w + 1, ?_, ?_, by omega, ?_, ?_,
        allW_changeWeight runs i ch w 1 hg, ?_⟩
      · simp only [insertRun, if_neg hne1, if_neg hpe, hs, hg,
          eq_self_iff_true, if_true]
      · rw [changeWeight_eq runs i ch w 1 hg]
        exact getElem?_take_append_cons runs i (ch, w + 1) _ (by omega)
      · rw [changeWeight_eq runs i ch w 1 hg,
          take_take_append runs i _ (by omega)]
        exact hlen
      · rw [decode_changeWeight runs i ch w 1 hg, hdec, ← hlen]
        exact (insAt_into_replicate (decode (runs.take i))
          (decode (runs.drop (i + 1))) ch w rel (by omega)).symm
      · intro h
        rw [charsOf_changeWeight runs i ch w 1 hg]
        exact h
    · by_cases hrel0 : rel = 0
      · subst hrel0
        cases i with
        | zero =>
          have hp0 : pos = 0 := by
            simp [decode] at hlen
            omega
          subst hp0
          refine ⟨(ch, 1) :: runs, 0, 0, 1, ?_, by simp, by omega, by rfl,
            by rw [decode, insAt_zero]; simp, ?_, ?_⟩
          · simp only [insertRun, if_neg hne1, if_neg hpe, hs, hg,
              if_neg hcc, eq_self_iff_true, if_true]
          · intro h
            rw [show (ch, 1) :: runs = [(ch, 1)] ++ runs by simp, allW_append,
              allW_cons]
            exact ⟨⟨by omega, allW_nil⟩, h⟩
          · intro h
            have hch : charsOf ((ch, 1) :: runs) = ch :: charsOf runs := rfl
            rw [hch, noAdj_cons]
            refine ⟨?_, h⟩
            intro z hz
            rw [List.head?_eq_getElem?, charsOf_getElem? runs 0 c w hg,
              Option.mem_some_iff] at hz
            subst hz
            exact hcc
        | succ j =>
          have hj : j < runs.length := by omega
          rcases hgj : runs[j]? with _ | ⟨cj, wj⟩
          · rw [List.getElem?_eq_none_iff] at hgj
            omega
          · by_cases hcj : ch = cj
            · subst hcj
              have htj := take_succ_of_getElem? runs j (ch, wj) hgj
              have hdecj := decode_take_decomp runs j ch wj hgj
              refine ⟨changeWeight runs j 1, j, wj, wj + 1, ?_, ?_, by omega,
                ?_, ?_, allW_changeWeight runs j ch wj 1 hgj, ?_⟩
              · simp only [insertRun, if_neg hne1, if_neg hpe, hs, hg,
                  if_neg hcc, eq_self_iff_true, if_true, hgj]
              · rw [changeWeight_eq runs j ch wj 1 hgj]
                exact getElem?_take_append_cons runs j (ch, wj + 1) _ (by omega)
              · rw [changeWeight_eq runs j ch wj 1 hgj,
                  take_take_append runs j _ (by omega)]
                rw [htj, decode_append] at hlen
                simp only [decode, List.append_nil, List.length_append,
                  List.length_replicate] at hlen
                omega
              · rw [decode_changeWeight runs j ch wj 1 hgj, hdecj]
                have hplen2 : pos = (decode (runs.take j)).length + wj := by
                  rw [htj, decode_append] at hlen
                  simp only [decode, List.append_nil, List.length_append,
                    List.length_replicate] at hlen
                  omega
                rw [hplen2]
                exact (insAt_into_replicate (decode (runs.take j))
                  (decode (runs.drop (j + 1))) ch wj wj (by omega)).symm
              · intro h
                rw [charsOf_changeWeight runs j ch wj 1 hgj]
                exact h
            · have hins := insertNewRunAfter_eq runs j ch 1 hj
              refine ⟨insertNewRunAfter ch 1 runs j, j + 1, 0, 1, ?_, ?_,
                by omega, ?_, ?_, ?_, ?_⟩
              · simp only [insertRun, if_neg hne1, if_neg hpe, hs, hg,
                  if_neg hcc, eq_self_iff_true, if_true, hgj, if_neg hcj]
              · rw [hins]
                exact getElem?_take_append_cons runs (j + 1) (ch, 1) _ (by omega)
              · rw [hins, take_take_append runs (j + 1) _ (by omega)]
                simpa using hlen
              · rw [hins]
                have hsplit2 : decode runs
                    = decode (runs.take (j + 1)) ++ decode (runs.drop (j + 1)) := by
                  conv_lhs => rw [← List.take_append_drop (j + 1) runs]
                  rw [decode_append]
                have hpl : pos = (decode (runs.take (j + 1))).length := by
                  omega
                rw [decode_append, hsplit2, hpl, insAt_at_append]
                simp [decode]
              · intro h
                rw [hins, allW_append, allW_cons]
                exact ⟨allW_take _ _ h, by omega, allW_drop _ _ h⟩
              · intro h
                rw [hins]
                have hch : charsOf (runs.take (j + 1) ++ (ch, 1) :: runs.drop (j + 1))
                    = (charsOf runs).take (j + 1)
                      ++ ch :: (charsOf runs).drop (j + 1) := by
                  rw [charsOf_append, charsOf_take]
                  simp [charsOf, List.map_drop]
                rw [hch]
                exact noAdj_mid (charsOf runs) j cj c ch
                  (charsOf_getElem? runs j cj wj hgj)
                  (charsOf_getElem? runs (j + 1) c w hg)
                  (fun h2 => hcj h2.symm) (fun h2 => hcc h2.symm) h
      · have hsp := splitRun_eq runs i rel ch 1 c w hg
        refine ⟨splitRun ch 1 runs i rel, i + 1, 0, 1, ?_, ?_, by omega, ?_,
          ?_, ?_, ?_⟩
        · simp only [insertRun, if_neg hne1, if_neg hpe, hs, hg, if_neg hcc,
            if_neg hrel0]
        · rw [hsp]
          exact getElem?_take_append_cons1 runs i (c, rel) (ch, 1) _ (by omega)
        · rw [hsp, take_succ_take_append runs i _ _ (by omega), decode_append]
          simp only [decode, List.append_nil, List.length_append,
            List.length_replicate]
          omega
        · rw [hsp, hdec, ← hlen,
            insAt_split_replicate (decode (runs.take i))
              (decode (runs.drop (i + 1))) c ch w rel (by omega)]
          rw [decode_append]
          simp [decode, List.append_assoc]
        · intro h
          rw [hsp, allW_append, allW_cons, allW_cons, allW_cons]
          exact ⟨allW_take _ _ h, by omega, by omega, by omega, allW_drop _ _ h⟩
        · intro h
          rw [hsp]
          have hch : charsOf (runs.take i
                ++ (c, rel) :: (ch, 1) :: (c, w - rel) :: runs.drop (i + 1))
              = (charsOf runs).take i
                ++ c :: ch :: c :: (charsOf runs).drop (i + 1) := by
            rw [charsOf_append, charsOf_take]
            simp [charsOf, List.map_drop]
          rw [hch]
          exact noAdj_split (charsOf runs) i c ch
            (charsOf_getElem? runs i c w hg) (fun h2 => hcc h2.symm) h

/-! ### Simulation of the inversion walk under one insertion -/

theorem rtot_le_length (c t : Nat) (T : List Nat) : rtot c t T ≤ T.length := by
  rw [rtot]
  have h1 := cnt_take_le c (t + 1) T
  have h2 := cnt_add_cntL_le c T
  omega

theorem rtot_insAt_self (T : List Nat) (e c : Nat) (he : e ≤ T.length) :
    rtot c e (insAt e c T) = cntL c T + cnt c (T.take e) + 1 := by
  rw [rtot, insAt_cnt_take_gt c c e T (e + 1) (by omega) he, insAt_cntL]
  simp
  omega

theorem shiftRow_ne (e2 q : Nat) : shiftRow e2 q ≠ e2 := by
  rw [shiftRow]
  by_cases h : e2 ≤ q
  · rw [if_pos h]
    omega
  · rw [if_neg h]
    omega

theorem stepT_lt (T : List Nat) (e q : Nat) (he : e ≤ T.length)
    (hq : q ≤ T.length) (hqe : q ≠ e) : stepT e q < T.length := by
  rw [stepT]
  by_cases h : e < q <;> simp [h] <;> omega

theorem stepT_shiftRow (e2 q : Nat) : stepT e2 (shiftRow e2 q) = q := by
  rw [stepT, shiftRow]
  by_cases h : e2 ≤ q
  · rw [if_pos h, if_pos (by omega)]
    omega
  · rw [if_neg h, if_neg (by omega)]

theorem step_sim (T : List Nat) (e c q : Nat) (he : e ≤ T.length)
    (hq : q ≤ T.length) (hqe : q ≠ e) :
    stepChar (insAt e c T) (rtot c e (insAt e c T))
        (shiftRow (rtot c e (insAt e c T)) q)
      = stepChar T e q
    ∧ stepNext (insAt e c T) (rtot c e (insAt e c T))
        (shiftRow (rtot c e (insAt e c T)) q)
      = shiftRow (rtot c e (insAt e c T)) (stepNext T e q) := by
  have he2 := rtot_insAt_self T e c he
  have htlt := stepT_lt T e q he hq hqe
  have hchar : stepChar (insAt e c T) (rtot c e (insAt e c T))
      (shiftRow (rtot c e (insAt e c T)) q) = stepChar T e q := by
    rw [stepChar, stepT_shiftRow, stepChar]
    by_cases hlt : e < q
    · rw [stepT, if_pos hlt] at htlt ⊢
      have h2 := insAt_getD_gt c e T (q - 1) (by omega) (by omega)
      rw [show q - 1 + 1 = q by omega] at h2
      exact h2
    · rw [stepT, if_neg hlt] at htlt ⊢
      exact insAt_getD_lt c e T q (by omega) he
  refine ⟨hchar, ?_⟩
  rw [stepNext, stepNext, hchar, stepT_shiftRow]
  set d := stepChar T e q with hd
  set t := stepT e q with ht
  have hgd : T.getD t 0 = d := rfl
  have hone := one_le_cnt_take_succ T t htlt
  rw [hgd] at hone
  have hq2le := rtot_le_length d t T
  have hrtot : rtot d q (insAt e c T)
      = rtot d t T + (if c < d then 1 else 0)
        + (if c = d ∧ e ≤ t then 1 else 0) := by
    rw [rtot, rtot, insAt_cntL]
    by_cases hlt : e < q
    · have ht2 : t = q - 1 := by rw [ht, stepT, if_pos hlt]
      have hte : e ≤ t := by omega
      rw [insAt_cnt_take_gt c d e T (q + 1) (by omega) he,
        show q + 1 - 1 = t + 1 by omega]
      by_cases hcd : c = d
      · rw [if_pos hcd,
          if_pos (show c = d ∧ e ≤ t from ⟨hcd, hte⟩)]
        omega
      · rw [if_neg hcd,
          if_neg (show ¬(c = d ∧ e ≤ t) from fun hx => hcd hx.1)]
        omega
    · have ht2 : t = q := by rw [ht, stepT, if_neg hlt]
      have hnte : ¬(c = d ∧ e ≤ t) := by
        intro hx
        omega
      rw [insAt_take_le c e T (q + 1) (by omega) he, if_neg hnte, ht2]
      omega
  have hind : (if rtot c e (insAt e c T) ≤ rtot d t T then 1 else 0)
      = (if c < d then 1 else 0) + (if c = d ∧ e ≤ t then 1 else 0) := by
    rcases Nat.lt_trichotomy c d with hcd | hcd | hcd
    · have hle : rtot c e (insAt e c T) ≤ rtot d t T := by
        rw [he2, rtot]
        have h1 := cnt_cntL_mono c d hcd T
        have h2 := cnt_take_le c e T
        omega
      rw [if_pos hle, if_pos hcd,
        if_neg (show ¬(c = d ∧ e ≤ t) from fun hx => by omega)]
    · by_cases hte : e ≤ t
      · have hle : rtot c e (insAt e c T) ≤ rtot d t T := by
          rw [he2, rtot, ← hcd]
          have h1 := cnt_take_succ_self T t htlt
          rw [hgd, ← hcd] at h1
          have h2 := cnt_take_mono c e t hte T
          omega
        rw [if_pos hle, if_neg (show ¬c < d by omega),
          if_pos (show c = d ∧ e ≤ t from ⟨hcd, hte⟩)]
      · have hgt : ¬rtot c e (insAt e c T) ≤ rtot d t T := by
          rw [he2, rtot, ← hcd]
          have h2 := cnt_take_mono c (t + 1) e (by omega) T
          omega
        rw [if_neg hgt, if_neg (show ¬c < d by omega),
          if_neg (show ¬(c = d ∧ e ≤ t) from fun hx => hte hx.2)]
    · have hgt : ¬rtot c e (insAt e c T) ≤ rtot d t T := by
        rw [he2, rtot]
        have h1 := cnt_cntL_mono d c hcd T
        have h3 := cnt_take_le d (t + 1) T
        omega
      rw [if_neg hgt, if_neg (show ¬c < d by omega),
        if_neg (show ¬(c = d ∧ e ≤ t) from fun hx => by omega)]
  rw [hrtot, shiftRow]
  by_cases hle : rtot c e (insAt e c T) ≤ rtot d t T
  · rw [if_pos hle]
    rw [if_pos hle] at hind
    omega
  · rw [if_neg hle]
    rw [if_neg hle] at hind
    omega

theorem step_final (T : List Nat) (e c : Nat) (he : e ≤ T.length) :
    stepChar (insAt e c T) (rtot c e (insAt e c T))
        (shiftRow (rtot c e (insAt e c T)) e) = c
    ∧ stepNext (insAt e c T) (rtot c e (insAt e c T))
        (shiftRow (rtot c e (insAt e c T)) e) = rtot c e (insAt e c T) := by
  have hchar : stepChar (insAt e c T) (rtot c e (insAt e c T))
      (shiftRow (rtot c e (insAt e c T)) e) = c := by
    rw [stepChar, stepT_shiftRow]
    exact insAt_getD_self c e T he
  refine ⟨hchar, ?_⟩
  rw [stepNext, hchar, stepT_shiftRow]

theorem shiftRow_le (e2 q : Nat) : shiftRow e2 q ≤ q + 1 := by
  rw [shiftRow]
  by_cases h : e2 ≤ q
  · rw [if_pos h]
  · rw [if_neg h]
    omega

theorem stepNext_le (T : List Nat) (e q : Nat) : stepNext T e q ≤ T.length := by
  rw [stepNext]
  exact rtot_le_length _ _ T

theorem walkTo_sim (T : List Nat) (e c : Nat) (he : e ≤ T.length) :
    ∀ (l : List Nat) (q : Nat), WalkTo T e q l → q ≤ T.length →
      WalkTo (insAt e c T) (rtot c e (insAt e c T))
        (shiftRow (rtot c e (insAt e c T)) q) (l ++ [c])
  | [], q, hw, _ => by
    have hq2 : q = e := hw
    subst hq2
    refine ⟨shiftRow_ne _ _, ?_, (step_final T q c he).1, ?_⟩
    · rw [insAt_length q c T he]
      have := shiftRow_le (rtot c q (insAt q c T)) q
      omega
    · show stepNext _ _ _ = _
      rw [(step_final T q c he).2]
  | c0 :: l, q, hw, hq => by
    obtain ⟨hqe, hqn, hchar, hrest⟩ := hw
    have hsim := step_sim T e c q he hq hqe
    refine ⟨shiftRow_ne _ _, ?_, ?_, ?_⟩
    · rw [insAt_length e c T he]
      have := shiftRow_le (rtot c e (insAt e c T)) q
      omega
    · rw [hsim.1, hchar]
    · rw [hsim.2]
      exact walkTo_sim T e c he l (stepNext T e q) hrest (stepNext_le T e q)

/-! ### Refinement: the shell operations compute the abstract walk data -/

theorem extend_spec (st : BwtState) (ch : Nat)
    (hpos : st.emPos ≤ getSumOfWeight st.runs) :
    ∃ st2, extend ch st = some st2 ∧
      decode st2.runs = insAt st.emPos ch (decode st.runs) ∧
      st2.emPos = (if ch = st.em then 0
        else rtot ch st.emPos (insAt st.emPos ch (decode st.runs)))
      ∧ st2.em = st.em ∧ st2.numEm = st.numEm ∧ st2.sapS = st.sapS
      ∧ st2.sapE = st.sapE
      ∧ (allW st.runs → allW st2.runs)
      ∧ (noAdj (charsOf st.runs) → noAdj (charsOf st2.runs)) := by
  obtain ⟨runs2, i, rel, wi, heq, hg2, hrel2, hlen2, hdec2, hallW, hnadj⟩ :=
    insertRun_spec st.runs ch st.emPos hpos
  refine ⟨⟨runs2, if ch = st.em then 0 else rankIdx runs2 ch i rel true,
    st.em, st.numEm, st.sapS, st.sapE⟩,
    ?_, hdec2, ?_, rfl, rfl, rfl, rfl, hallW, hnadj⟩
  · simp only [extend, heq]
  · by_cases hch : ch = st.em
    · simp [hch]
    · simp only [if_neg hch]
      rw [rankIdx_rtot runs2 ch i rel st.emPos wi hg2 hrel2 hlen2, hdec2]

theorem buildExact_append (em : Nat) (S : List Nat) (c : Nat) :
    buildExact em (S ++ [c]) = (buildExact em S).bind (extend c) := by
  rw [buildExact, buildExact, List.foldl_append]
  rfl

theorem buildExact_spec (em : Nat) (S : List Nat) :
    (∀ x ∈ S, x ≠ em) →
      ∃ st, buildExact em S = some st ∧ st.em = em ∧
        Inv S (decode st.runs) st.emPos ∧
        allW st.runs ∧ noAdj (charsOf st.runs) := by
  induction S using List.reverseRecOn with
  | nil =>
    intro _
    exact ⟨initState em, rfl, rfl, ⟨rfl, Nat.le_refl 0, rfl⟩, allW_nil, trivial⟩
  | append_singleton S c ih =>
    intro hS
    have hc : c ≠ em := hS c (by simp)
    have hS2 : ∀ x ∈ S, x ≠ em := fun x hx => hS x (by simp [hx])
    obtain ⟨st, hb, hem, ⟨hlen, he, hwalk⟩, hallW, hnadj⟩ := ih hS2
    have hpos : st.emPos ≤ getSumOfWeight st.runs := by
      rw [← decode_length]
      exact he
    obtain ⟨st2, hext, hdec2, hempos, hem2, _, _, _, hW2, hN2⟩ :=
      extend_spec st c hpos
    have he2' : st2.emPos
        = rtot c st.emPos (insAt st.emPos c (decode st.runs)) := by
      rw [hempos, if_neg (fun h => hc (by rw [← hem]; exact h))]
    have hone : 1 ≤ rtot c st.emPos (insAt st.emPos c (decode st.runs)) := by
      rw [rtot_insAt_self (decode st.runs) st.emPos c he]
      omega
    refine ⟨st2, ?_, by rw [hem2, hem], ?_, hW2 hallW, hN2 hnadj⟩
    · rw [buildExact_append, hb]
      exact hext
    · refine ⟨?_, ?_, ?_⟩
      · rw [hdec2, insAt_length _ _ _ he]
        simp [hlen]
      · rw [hdec2, he2', insAt_length _ _ _ he]
        have h2 := rtot_le_length c st.emPos (insAt st.emPos c (decode st.runs))
        rw [insAt_length _ _ _ he] at h2
        exact h2
      · have hq0 : shiftRow
            (rtot c st.emPos (insAt st.emPos c (decode st.runs))) 0 = 0 := by
          rw [shiftRow, if_neg (by omega)]
        have hw2 := walkTo_sim (decode st.runs) st.emPos c he S 0 hwalk
          (Nat.zero_le _)
        rw [hq0] at hw2
        rw [hdec2, he2']
        exact hw2

theorem invertGo_of_walk (runs : Runs) (e : Nat) :
    ∀ (l : List Nat) (q : Nat), e ≤ (decode runs).length →
      WalkTo (decode runs) e q l → invertGo runs e l.length q = some l
  | [], _, _, _ => rfl
  | c0 :: l, q, he, hw => by
    obtain ⟨hqe, hqn, hchar, hrest⟩ := hw
    have htlt : stepT e q < (decode runs).length :=
      stepT_lt (decode runs) e q he hqn hqe
    rw [decode_length] at htlt
    obtain ⟨i, rel, c, w, hs, hg, hrel, hlen, hgd⟩ :=
      searchPosM_spec runs (stepT e q) htlt
    have hcc : c = c0 := by
      rw [← hchar, stepChar, ← hgd]
    have hstep : invertStep runs e q
        = some (c0, stepNext (decode runs) e q) := by
      have hs2 : searchPosM runs (if e < q then q - 1 else q) = some (i, rel) :=
        hs
      simp only [invertStep, hs2, hg]
      subst hcc
      rw [rankIdx_rtot runs c i rel (stepT e q) w hg hrel hlen]
      rw [stepNext, ← hchar]
    show invertGo runs e (l.length + 1) q = some (c0 :: l)
    simp only [invertGo, hstep,
      invertGo_of_walk runs e l (stepNext (decode runs) e q) he hrest]

theorem invert_of_inv (st : BwtState) (S : List Nat)
    (hinv : Inv S (decode st.runs) st.emPos) : invert st = some S := by
  obtain ⟨hlen, he, hw⟩ := hinv
  have h1 : getLenWithEndmarker st - 1 = S.length := by
    rw [getLenWithEndmarker, ← decode_length]
    omega
  rw [invert, h1]
  exact invertGo_of_walk st.runs st.emPos S 0 he hw

theorem insertRun_some_le (runs : Runs) (ch w pos : Nat) (x : Runs × Nat × Nat)
    (h : insertRun ch w pos runs = some x) : pos ≤ getSumOfWeight runs := by
  by_contra hc
  rw [insertRun, if_pos (by omega)] at h
  exact Option.noConfusion h

theorem extend_some_wf (st st2 : BwtState) (ch : Nat)
    (h : extend ch st = some st2) :
    (allW st.runs → allW st2.runs)
    ∧ (noAdj (charsOf st.runs) → noAdj (charsOf st2.runs)) := by
  rcases heq : insertRun ch 1 st.emPos st.runs with _ | ⟨runs2, i, rel⟩
  · rw [extend, heq] at h
    exact Option.noConfusion h
  · have hle := insertRun_some_le st.runs ch 1 st.emPos _ heq
    obtain ⟨runs2', i', rel', wi, heq', _, _, _, _, hW, hN⟩ :=
      insertRun_spec st.runs ch st.emPos hle
    rw [heq] at heq'
    have hr : runs2' = runs2 := by
      have h2 := Option.some.inj heq'
      exact (congrArg Prod.fst h2).symm
    rw [extend, heq] at h
    have hst2 := Option.some.inj h
    have hruns : st2.runs = runs2 := by
      rw [← hst2]
    rw [hruns, ← hr]
    exact ⟨hW, hN⟩

theorem buildExact_wf (em : Nat) (S : List Nat) :
    ∀ st, buildExact em S = some st →
      allW st.runs ∧ noAdj (charsOf st.runs) := by
  induction S using List.reverseRecOn with
  | nil =>
    intro st h
    have h2 : initState em = st := Option.some.inj h
    rw [← h2]
    exact ⟨allW_nil, trivial⟩
  | append_singleton S c ih =>
    intro st h
    rw [buildExact_append] at h
    rcases hb : buildExact em S with _ | st0
    · rw [hb] at h
      exact Option.noConfusion h
    · rw [hb, Option.some_bind] at h
      have hw := extend_some_wf st0 st c h
      obtain ⟨h1, h2⟩ := ih st0 hb
      exact ⟨hw.1 h1, hw.2 h2⟩

/-! ### For sequences without the end marker, the SAP builder and the exact
builder coincide -/

theorem sptExtend_sim (stO stE : BwtState) (ch : Nat)
    (hch : ch ≠ stE.em)
    (hruns : stO.runs = stE.runs) (hem : stO.em = stE.em)
    (hss : stO.sapS = stE.emPos) (hse : stO.sapE = stE.emPos)
    (hpos : stE.emPos ≤ getSumOfWeight stE.runs) :
    ∃ stO2 stE2, extend ch stE = some stE2 ∧ sptExtend ch stO = some stO2 ∧
      stO2.runs = stE2.runs ∧ stO2.em = stE2.em ∧
      stO2.sapS = stE2.emPos ∧ stO2.sapE = stE2.emPos ∧
      stE2.em = stE.em
      ∧ stE2.emPos ≤ getSumOfWeight stE2.runs := by
  obtain ⟨runs2, i, rel, wi, heq, hg, hrel, hlenp, hdec, _, _⟩ :=
    insertRun_spec stE.runs ch stE.emPos hpos
  have hchE : ¬ch = stE.em := hch
  have hlen2 : (decode runs2).length = (decode stE.runs).length + 1 := by
    rw [hdec, insAt_length]
    rw [decode_length]
    exact hpos
  have hsum2 : stE.emPos < getSumOfWeight runs2 := by
    rw [← decode_length] at hpos ⊢
    omega
  obtain ⟨i2, rel2, c2, w2, hs2, hg2, hrel2, hlen2', hgd2⟩ :=
    searchPosM_spec runs2 stE.emPos hsum2
  have hc2 : c2 = ch := by
    rw [← hgd2, hdec]
    exact insAt_getD_self ch stE.emPos (decode stE.runs)
      (by rw [decode_length]; exact hpos)
  rw [hc2] at hg2 hgd2
  have hrk : rank runs2 ch stE.emPos true
      = some (rtot ch stE.emPos (decode runs2)) := by
    simp only [rank, hs2]
    rw [rankIdx_rtot runs2 ch i2 rel2 stE.emPos w2 hg2 hrel2 hlen2']
  have heE : rankIdx runs2 ch i rel true
      = rtot ch stE.emPos (decode runs2) :=
    rankIdx_rtot runs2 ch i rel stE.emPos wi hg hrel hlenp
  refine ⟨⟨runs2, stO.emPos, stO.em, stO.numEm,
      rtot ch stE.emPos (decode runs2), rtot ch stE.emPos (decode runs2)⟩,
    ⟨runs2, rtot ch stE.emPos (decode runs2), stE.em, stE.numEm,
      stE.sapS, stE.sapE⟩, ?_, ?_, rfl, hem, rfl, rfl, rfl, ?_⟩
  · simp only [extend, heq, if_neg hchE, heE]
  · have hspt_eq : stO.sapS = stO.sapE := by rw [hss, hse]
    have hins : sptInsertPhase ch stO = some runs2 := by
      simp only [sptInsertPhase, if_pos hspt_eq]
      simp only [hruns, hss, heq]
    have hcho : ¬ch = stO.em := by
      rw [hem]
      exact hchE
    simp only [sptExtend, hins, if_neg hcho, if_pos hspt_eq]
    simp only [hss, hrk]
  · have h2 := rtot_le_length ch stE.emPos (decode runs2)
    rw [decode_length] at h2
    exact h2

theorem buildOpt_append (em : Nat) (S : List Nat) (c : Nat) :
    buildOpt em (S ++ [c]) = (buildOpt em S).bind (sptExtend c) := by
  rw [buildOpt, buildOpt, List.foldl_append]
  rfl

theorem build_sim (em : Nat) (S : List Nat) (hS : ∀ x ∈ S, x ≠ em) :
    ∃ stO stE, buildOpt em S = some stO ∧ buildExact em S = some stE ∧
      stO.runs = stE.runs ∧ stO.em = em ∧ stE.em = em ∧
      stO.sapS = stE.emPos ∧ stO.sapE = stE.emPos ∧
      stE.emPos ≤ getSumOfWeight stE.runs := by
  induction S using List.reverseRecOn with
  | nil =>
    exact ⟨initState em, initState em, rfl, rfl, rfl, rfl, rfl, rfl, rfl,
      Nat.le_refl 0⟩
  | append_singleton S c ih =>
    have hc : c ≠ em := hS c (by simp)
    have hS2 : ∀ x ∈ S, x ≠ em := fun x hx => hS x (by simp [hx])
    obtain ⟨stO, stE, hbO, hbE, hruns, hemO, hemE, hss, hse, hpos⟩ := ih hS2
    obtain ⟨stO2, stE2, hext, hspt, hruns2, hem2, hss2, hse2, hemE2, hpos2⟩ :=
      sptExtend_sim stO stE c (by rw [hemE]; exact hc)
        hruns (by rw [hemO, hemE]) hss hse hpos
    refine ⟨stO2, stE2, ?_, ?_, hruns2, by rw [hem2, hemE2, hemE],
      by rw [hemE2, hemE], hss2, hse2, hpos2⟩
    · rw [buildOpt_append, hbO, Option.some_bind]
      exact hspt
    · rw [buildExact_append, hbE, Option.some_bind]
      exact hext

theorem u64sub1_eq (x : Nat) (h1 : 1 ≤ x) (h2 : x < 2 ^ 64) :
    u64sub1 x = x - 1 := by
  rw [u64sub1]
  have : x + (2 ^ 64 - 1) = (x - 1) + 1 * 2 ^ 64 := by omega
  rw [this, Nat.add_mul_mod_self_right]
  omega

/-! ### The claims -/

/-- C1.  Inversion round-trip: for every byte sequence S whose characters
all differ from the end marker, after building the RLBWT by one `extend`
per character of S in order, `invert` emits exactly the characters of S, in
order. -/
theorem C1_inversion_roundtrip (em : Nat) (S : List Nat)
    (hS : ∀ c ∈ S, c ≠ em) :
    ∃ st, buildExact em S = some st ∧ invert st = some S := by
  obtain ⟨st, hb, _, hinv, _, _⟩ := buildExact_spec em S hS
  exact ⟨st, hb, invert_of_inv st S hinv⟩

/-- Witness for C1 at S = "abab" (bytes 97 98 97 98), em = 1. -/
theorem C1_inversion_roundtrip_witness :
    ∃ st, buildExact 1 [97, 98, 97, 98] = some st
      ∧ invert st = some [97, 98, 97, 98] :=
  C1_inversion_roundtrip 1 [97, 98, 97, 98] (by decide)

/-- C2 as stated is false: for a character absent from the string,
`rank(ch, pos, true)` returns 0 (the source returns before adding the
total), not the brute-force count plus the occurrences of smaller
characters.  Here the state `[(2,1),(3,1)]` is reached by two `extend`
calls, and for ch = 4 at pos = 0 the code yields 0 while the claimed value
is 0 + cntLt 4 = 2. -/
theorem C2_counterexample :
    buildExact 1 [2, 3] = some ⟨[(2, 1), (3, 1)], 2, 1, 1, 0, 0⟩
    ∧ rank [(2, 1), (3, 1)] 4 0 true = some 0
    ∧ cnt 4 ((decode [(2, 1), (3, 1)]).take (0 + 1))
        + cntL 4 (decode [(2, 1), (3, 1)]) = 2 := by
  refine ⟨by decide, by decide, by decide⟩

/-- C2 amended.  Rank agreement: for every run list and every in-range
position, `rank(ch, pos, false)` equals the brute-force count of ch in
T[0..pos]; with `calc_total`, the total occurrences of smaller characters
are added provided ch occurs in T, while for an absent ch the result is 0. -/
theorem C2_rank_agreement (runs : Runs) (ch pos : Nat)
    (hpos : pos < getSumOfWeight runs) :
    rank runs ch pos false = some (cnt ch ((decode runs).take (pos + 1)))
    ∧ (present ch runs = true →
        rank runs ch pos true
          = some (cnt ch ((decode runs).take (pos + 1))
              + cntL ch (decode runs)))
    ∧ (present ch runs = false → rank runs ch pos true = some 0) :=
  rank_spec runs ch pos hpos

/-- Witness for C2 amended at runs = [(2,1),(3,1)], ch = 3, pos = 1. -/
theorem C2_rank_agreement_witness :
    rank [(2, 1), (3, 1)] 3 1 false
        = some (cnt 3 ((decode [(2, 1), (3, 1)]).take (1 + 1)))
    ∧ (present 3 [(2, 1), (3, 1)] = true →
        rank [(2, 1), (3, 1)] 3 1 true
          = some (cnt 3 ((decode [(2, 1), (3, 1)]).take (1 + 1))
              + cntL 3 (decode [(2, 1), (3, 1)])))
    ∧ (present 3 [(2, 1), (3, 1)] = false →
        rank [(2, 1), (3, 1)] 3 1 true = some 0) :=
  C2_rank_agreement [(2, 1), (3, 1)] 3 1 (by decide)

/-- C3.  `extend(ch)` first calls `insertRun(emPos_, ch)` obtaining the run
index `idxM` (with `emPos_` updated in place to the relative position);
then, if ch is the end marker, it resets `emPos_` to 0, and otherwise sets
`emPos_` to `rank(ch, idxM, emPos_, true)`. -/
theorem C3_extend_structure (st : BwtState) (ch : Nat) (runs2 : Runs)
    (i rel : Nat) (h : insertRun ch 1 st.emPos st.runs = some (runs2, i, rel)) :
    extend ch st = some ⟨runs2,
      (if ch = st.em then 0 else rankIdx runs2 ch i rel true),
      st.em, st.numEm, st.sapS, st.sapE⟩ := by
  simp only [extend, h]

/-- Witness for C3 at the state reached after extending with 2 (em = 1). -/
theorem C3_extend_structure_witness :
    extend 3 ⟨[(2, 1)], 1, 1, 1, 0, 0⟩
      = some ⟨[(2, 1), (3, 1)],
          (if 3 = 1 then 0 else rankIdx [(2, 1), (3, 1)] 3 1 0 true),
          1, 1, 0, 0⟩ :=
  C3_extend_structure ⟨[(2, 1)], 1, 1, 1, 0, 0⟩ 3 [(2, 1), (3, 1)] 1 0
    (by decide)

/-- C4 as stated is false on the code: feeding S = [em, em] (two end
markers), the second `sptExtend` reaches the wider interval [0, 1] and
calls `rank(ch, sap_e, false)` with `sap_e = 1 = |T|`, violating rank's
asserted precondition `pos < |T|` (modelled as `none`), so the SAP builder
does not produce a run count at all, while the exact builder succeeds. -/
theorem C4_counterexample :
    buildOpt 1 [1, 1] = none ∧ (buildExact 1 [1, 1]).isSome = true := by
  refine ⟨by decide, by decide⟩

/-- C4 amended.  For every input sequence without the end marker, the SAP
builder and the exact builder produce identical run lists, hence the SAP
builder never produces more runs than the exact builder.  (For inputs
containing the end marker followed by further input, the interval update
of `sptExtend` calls rank out of range, so no run count is defined.) -/
theorem C4_opt_le_exact (em : Nat) (S : List Nat) (hS : ∀ c ∈ S, c ≠ em) :
    ∃ stO stE, buildOpt em S = some stO ∧ buildExact em S = some stE ∧
      stO.runs = stE.runs ∧ stO.runs.length ≤ stE.runs.length := by
  obtain ⟨stO, stE, h1, h2, h3, _⟩ := build_sim em S hS
  exact ⟨stO, stE, h1, h2, h3, by rw [h3]⟩

/-- Witness for C4 amended at S = [2, 3, 2, 2], em = 1. -/
theorem C4_opt_le_exact_witness :
    ∃ stO stE, buildOpt 1 [2, 3, 2, 2] = some stO
      ∧ buildExact 1 [2, 3, 2, 2] = some stE
      ∧ stO.runs = stE.runs ∧ stO.runs.length ≤ stE.runs.length :=
  C4_opt_le_exact 1 [2, 3, 2, 2] (by decide)

/-- C5.  The three branches of `insertOptRun` (the optimal within-interval
helper): (1) if `sap_s > 0` and the run containing position `sap_s - 1` has
character ch, it merges there, incrementing that run's weight by one;
(2) otherwise, if the run containing `sap_s` covers only a left tail of
`[sap_s, sap_e]` (it ends strictly before `sap_e`), a fresh run of ch is
appended after it via `insertRunAfter`, splitting no foreign run;
(3) otherwise (the run covers the whole interval), it falls back to
`insertRun(sap_s, ch)`. -/
theorem C5_insert_opt_run_branches :
    (∀ (runs : Runs) (sapS sapE ch i rel ci wi : Nat),
      sapS ≠ 0 →
      searchPosM runs (sapS - 1) = some (i, rel) →
      runs[i]? = some (ci, wi) →
      ch = ci →
      insertOptRun sapS sapE ch runs = some (changeWeight runs i 1))
    ∧ (∀ (runs : Runs) (sapS sapE ch i rel ci wi : Nat),
      (sapS = 0 ∨ ∃ j rj cj wj, searchPosM runs (sapS - 1) = some (j, rj)
        ∧ runs[j]? = some (cj, wj) ∧ ch ≠ cj) →
      searchPosM runs sapS = some (i, rel) →
      runs[i]? = some (ci, wi) →
      sapS - rel + wi - 1 < sapE →
      insertOptRun sapS sapE ch runs = some (insertRunAfter runs i ch))
    ∧ (∀ (runs : Runs) (sapS sapE ch i rel ci wi : Nat),
      (sapS = 0 ∨ ∃ j rj cj wj, searchPosM runs (sapS - 1) = some (j, rj)
        ∧ runs[j]? = some (cj, wj) ∧ ch ≠ cj) →
      searchPosM runs sapS = some (i, rel) →
      runs[i]? = some (ci, wi) →
      ¬ (sapS - rel + wi - 1 < sapE) →
      insertOptRun sapS sapE ch runs
        = some (match insertRun ch 1 sapS runs with
                | some (r, _, _) => r
                | none => runs)) := by
  refine ⟨?_, ?_, ?_⟩
  · intro runs sapS sapE ch i rel ci wi h0 hs hg hc
    simp only [insertOptRun, if_pos h0, hs, hg, hc, eq_self_iff_true, if_true]
  · intro runs sapS sapE ch i rel ci wi hpre hs hg hlt
    have hcore : insertOptRunCore sapS sapE ch runs
        = some (insertRunAfter runs i ch) := by
      simp only [insertOptRunCore, hs, hg, if_pos hlt]
    rcases hpre with h0 | ⟨j, rj, cj, wj, hsj, hgj, hne⟩
    · simp only [insertOptRun,
        if_neg (show ¬sapS ≠ 0 from fun hx => hx h0), hcore]
    · by_cases h0 : sapS = 0
      · simp only [insertOptRun,
          if_neg (show ¬sapS ≠ 0 from fun hx => hx h0), hcore]
      · simp only [insertOptRun, if_pos h0, hsj, hgj, if_neg hne, hcore]
  · intro runs sapS sapE ch i rel ci wi hpre hs hg hge
    have hcore : insertOptRunCore sapS sapE ch runs
        = some (match insertRun ch 1 sapS runs with
                | some (r, _, _) => r
                | none => runs) := by
      simp only [insertOptRunCore, hs, hg, if_neg hge]
    rcases hpre with h0 | ⟨j, rj, cj, wj, hsj, hgj, hne⟩
    · simp only [insertOptRun,
        if_neg (show ¬sapS ≠ 0 from fun hx => hx h0), hcore]
    · by_cases h0 : sapS = 0
      · simp only [insertOptRun,
          if_neg (show ¬sapS ≠ 0 from fun hx => hx h0), hcore]
      · simp only [insertOptRun, if_pos h0, hsj, hgj, if_neg hne, hcore]

/-- Witness for C5: the merge branch on [(2,1),(3,1)] at sap interval
[1,2] with ch = 2; the insert-after branch on [(2,1),(3,1),(4,2)] at [1,2]
with ch = 9; the fallback branch on [(2,3)] at [1,2] with ch = 5. -/
theorem C5_insert_opt_run_branches_witness :
    insertOptRun 1 2 2 [(2, 1), (3, 1)] = some (changeWeight [(2, 1), (3, 1)] 0 1)
    ∧ insertOptRun 1 2 9 [(2, 1), (3, 1), (4, 2)]
        = some (insertRunAfter [(2, 1), (3, 1), (4, 2)] 1 9)
    ∧ insertOptRun 1 2 5 [(2, 3)]
        = some (match insertRun 5 1 1 [(2, 3)] with
                | some (r, _, _) => r
                | none => [(2, 3)]) :=
  ⟨C5_insert_opt_run_branches.1 [(2, 1), (3, 1)] 1 2 2 0 0 2 1
      (by decide) (by decide) (by decide) (by decide),
   C5_insert_opt_run_branches.2.1 [(2, 1), (3, 1), (4, 2)] 1 2 9 1 0 3 1
      (Or.inr ⟨0, 0, 2, 1, by decide, by decide, by decide⟩)
      (by decide) (by decide) (by decide),
   C5_insert_opt_run_branches.2.2 [(2, 3)] 1 2 5 0 1 2 3
      (Or.inr ⟨0, 0, 2, 3, by decide, by decide, by decide⟩)
      (by decide) (by decide) (by decide)⟩

/-- C6.  The interval update of `sptExtend` after the insertion phase
(runs1 being the run list it produced): if ch equals the end marker,
`num_em_` is incremented and the interval becomes [0, num_em_ - 1];
otherwise a single-point interval is mapped to the point
`rank(ch, sap_s, true)` on runs1, and a wider interval with `sap_s ≥ 1`
(where the uint64 `sap_s - 1` does not wrap) becomes
`[rank(ch, sap_s - 1, true) + 1, rank(ch, sap_e, true)]` on runs1. -/
theorem C6_interval_update :
    (∀ (st : BwtState) (ch : Nat) (runs1 : Runs),
      sptInsertPhase ch st = some runs1 →
      ch = st.em →
      sptExtend ch st = some ⟨runs1, st.emPos, st.em,
        st.numEm + 1, 0, st.numEm + 1 - 1⟩)
    ∧ (∀ (st : BwtState) (ch : Nat) (runs1 : Runs) (t : Nat),
      sptInsertPhase ch st = some runs1 →
      ch ≠ st.em →
      st.sapS = st.sapE →
      rank runs1 ch st.sapS true = some t →
      sptExtend ch st = some ⟨runs1, st.emPos, st.em, st.numEm, t, t⟩)
    ∧ (∀ (st : BwtState) (ch : Nat) (runs1 : Runs) (a b : Nat),
      sptInsertPhase ch st = some runs1 →
      ch ≠ st.em →
      st.sapS ≠ st.sapE →
      1 ≤ st.sapS →
      st.sapS < 2 ^ 64 →
      rank runs1 ch (st.sapS - 1) true = some a →
      rank runs1 ch st.sapE true = some b →
      sptExtend ch st = some ⟨runs1, st.emPos, st.em, st.numEm, a + 1, b⟩) := by
  refine ⟨?_, ?_, ?_⟩
  · intro st ch runs1 hins hem
    simp only [sptExtend, hins, if_pos hem]
  · intro st ch runs1 t hins hem hss hrk
    simp only [sptExtend, hins, if_neg hem, if_pos hss, hrk]
  · intro st ch runs1 a b hins hem hss h1 h2 ha hb
    have hu : u64sub1 st.sapS = st.sapS - 1 := u64sub1_eq st.sapS h1 h2
    simp only [sptExtend, hins, if_neg hem, if_neg hss, hu, ha, hb]

/-- Witness for C6: the end-marker branch on ⟨[(2,1)], 0, 1, 1, 0, 0⟩ with
ch = 1; the single-point branch on the same state with ch = 3; the wider
branch on ⟨[(2,1),(3,1),(2,1)], 0, 1, 2, 1, 2⟩ with ch = 3. -/
theorem C6_interval_update_witness :
    sptExtend 1 ⟨[(2, 1)], 0, 1, 1, 0, 0⟩
        = some ⟨[(1, 1), (2, 1)], 0, 1, 1 + 1, 0, 1 + 1 - 1⟩
    ∧ sptExtend 3 ⟨[(2, 1)], 0, 1, 1, 0, 0⟩
        = some ⟨[(3, 1), (2, 1)], 0, 1, 1, 2, 2⟩
    ∧ sptExtend 3 ⟨[(2, 1), (3, 1), (2, 1)], 0, 1, 2, 1, 2⟩
        = some ⟨[(2, 1), (3, 2), (2, 1)], 0, 1, 2, 2 + 1, 4⟩ :=
  ⟨C6_interval_update.1 ⟨[(2, 1)], 0, 1, 1, 0, 0⟩ 1 [(1, 1), (2, 1)]
      (by decide) (by decide),
   C6_interval_update.2.1 ⟨[(2, 1)], 0, 1, 1, 0, 0⟩ 3 [(3, 1), (2, 1)] 2
      (by decide) (by decide) (by decide) (by decide),
   C6_interval_update.2.2 ⟨[(2, 1), (3, 1), (2, 1)], 0, 1, 2, 1, 2⟩ 3
      [(2, 1), (3, 2), (2, 1)] 2 4
      (by decide) (by decide) (by decide) (by decide) (by decide)
      (by decide) (by decide)⟩

/-- C7.  Run-merge invariant of the exact builder: after any sequence of
`extend` calls, walking the runs in text order, no two consecutive runs
have the same character, and every run has weight at least 1. -/
theorem C7_run_merge_invariant (em : Nat) (S : List Nat) (st : BwtState)
    (h : buildExact em S = some st) :
    noAdj (charsOf st.runs) ∧ allW st.runs := by
  obtain ⟨h1, h2⟩ := buildExact_wf em S st h
  exact ⟨h2, h1⟩

/-- Witness for C7 at S = [2, 3, 2, 2], em = 1. -/
theorem C7_run_merge_invariant_witness :
    noAdj (charsOf (⟨[(2, 1), (3, 1), (2, 2)], 2, 1, 1, 0, 0⟩ : BwtState).runs)
    ∧ allW (⟨[(2, 1), (3, 1), (2, 2)], 2, 1, 1, 0, 0⟩ : BwtState).runs :=
  C7_run_merge_invariant 1 [2, 3, 2, 2] ⟨[(2, 1), (3, 1), (2, 2)], 2, 1, 1, 0, 0⟩
    (by decide)

/-- C8 as stated is false for rank: `rank` has no sentinel path — the
source asserts `pos < |T|` and otherwise descends the tree out of range,
so no result is defined (modelled as `none` rather than a sentinel value).
Concretely, on the one-run string [(2,1)] (|T| = 1), rank at pos = 3 > 1
has no defined result. -/
theorem C8_counterexample : rank [(2, 1)] 3 3 false = none := by decide

/-- C8 amended.  `insert_run` with pos > total_length returns the sentinel
NOTFOUND without modifying the structure, and `select` with a rank
exceeding the character's occurrence count returns NOTFOUND; `rank`,
however, has the asserted precondition pos < |T| and is defined exactly on
it (no sentinel). -/
theorem C8_out_of_range_sentinels :
    (∀ (runs : Runs) (ch w pos : Nat), getSumOfWeight runs < pos →
      insertRun ch w pos runs = none)
    ∧ (∀ (runs : Runs) (ch r : Nat), cntCh ch runs < r →
        select runs ch r = none)
    ∧ (∀ (runs : Runs) (ch pos : Nat) (ct : Bool),
        pos < getSumOfWeight runs → rank runs ch pos ct ≠ none) := by
  refine ⟨?_, ?_, ?_⟩
  · intro runs ch w pos h
    rw [insertRun, if_pos h]
  · intro runs ch r h
    rw [select]
    by_cases hp : present ch runs = false
    · rw [if_pos hp]
    · rw [if_neg hp, if_pos h]
  · intro runs ch pos ct h
    obtain ⟨i, rel, c, w, hs, _⟩ := searchPosM_spec runs pos h
    simp only [rank, hs]
    simp

/-- Witness for C8 amended at concrete out-of-range queries. -/
theorem C8_out_of_range_sentinels_witness :
    insertRun 3 1 5 [(2, 1)] = none
    ∧ select [(2, 1)] 2 4 = none
    ∧ rank [(2, 1)] 3 0 false ≠ none :=
  ⟨C8_out_of_range_sentinels.1 [(2, 1)] 3 1 5 (by decide),
   C8_out_of_range_sentinels.2.1 [(2, 1)] 2 4 (by decide),
   C8_out_of_range_sentinels.2.2 [(2, 1)] 3 0 false (by decide)⟩

/-- C9 as stated is false: for an absent character with `calc_total` true,
the source returns 0 before adding anything, not the F-column position of
the smallest present character ≥ ch.  In [(2,1),(5,1)] (reached by two
`extend` calls) with ch = 3, the smallest present character ≥ 3 is 5,
whose F-column position is 1, but rank returns 0. -/
theorem C9_counterexample :
    buildExact 1 [2, 5] = some ⟨[(2, 1), (5, 1)], 2, 1, 1, 0, 0⟩
    ∧ rank [(2, 1), (5, 1)] 3 0 true = some 0
    ∧ specFPosGe 3 [(2, 1), (5, 1)] = some 1 := by
  refine ⟨by decide, by decide, by decide⟩

/-- C9 amended.  Unknown-character rank: for every character that does not
occur in the represented string and every in-range position, rank returns
0 both with `calc_total` false and with `calc_total` true. -/
theorem C9_unknown_char_rank (runs : Runs) (ch pos : Nat)
    (hpos : pos < getSumOfWeight runs) (hab : present ch runs = false) :
    rank runs ch pos false = some 0 ∧ rank runs ch pos true = some 0 := by
  obtain ⟨h1, _, h3⟩ := rank_spec runs ch pos hpos
  refine ⟨?_, h3 hab⟩
  rw [h1]
  have hc : cnt ch (decode runs) = 0 := by
    rw [cnt_decode]
    exact present_false_cntCh ch runs hab
  have := cnt_take_le ch (pos + 1) (decode runs)
  simp
  omega

/-- Witness for C9 amended at runs = [(2,1),(5,1)], ch = 7, pos = 1. -/
theorem C9_unknown_char_rank_witness :
    rank [(2, 1), (5, 1)] 7 1 false = some 0
    ∧ rank [(2, 1), (5, 1)] 7 1 true = some 0 :=
  C9_unknown_char_rank [(2, 1), (5, 1)] 7 1 (by decide) (by decide)

/-- C10.  For every rank r ≥ 1, `select(ch, r)` returns NOTFOUND whenever
ch does not occur in the represented string at all (its separated tree is
absent or its root is the dummy), independently of r. -/
theorem C10_select_absent (runs : Runs) (ch r : Nat)
    (hab : present ch runs = false) (hr : 1 ≤ r) :
    select runs ch r = none := by
  rw [select, if_pos hab]

/-- Witness for C10 at runs = [(2,3)], ch = 7, r = 1. -/
theorem C10_select_absent_witness : select [(2, 3)] 7 1 = none :=
  C10_select_absent [(2, 3)] 7 1 (by decide) (by decide)

end Ospt
